import Mathlib

/-!
Verification development for the tricolor posterizer (src/tricolor.py).

The Python source is shallowly embedded below.  Conventions:

* 8-bit channel triples are `ColorV := ℕ × ℕ × ℕ` with values in `[0, 256)`;
  the numpy `uint8` subtraction `lab_image - palette_lab[i]` wraps modulo
  256, which is embedded exactly (`wrapSub`).
* Distances are Euclidean norms; `argmin` and the rebalancing sort key are
  expressed through squared distances (`ℕ`) together with an exact decision
  procedure `sqrtSumLE` for comparing `√a + √b ≤ √c + √d`, proved equivalent
  to the real-number comparison.  Beyond this the embedding idealizes the
  float arithmetic on distances as exact real arithmetic.
* The float computation of `target_pixels`, namely
  `int(target_fraction * lab_image.size / 3)` with `target_fraction = 1/3`,
  is embedded exactly as IEEE binary64 round-to-nearest-even over `ℚ`
  (`roundDouble`), valid on the positive normal range exercised here.
* `cv2` (color-space conversion, image decode) is an external collaborator;
  it is kept as an abstract function parameter.
* Python exceptions are embedded as `Option` (`none` = `ValueError`).
-/

/-- An 8-bit channel triple (RGB or LAB, values in `[0, 256)`). -/
abbrev ColorV : Type := ℕ × ℕ × ℕ

/-! ### hex_to_rgb (src/tricolor.py lines 7-13) -/

/-- Python `str.lstrip(chars)`: drop the longest leading run of characters
belonging to the set `cs`. -/
def pyLstrip (cs : List Char) (s : List Char) : List Char :=
  s.dropWhile (fun c => c ∈ cs)

/-- Value of a single hexadecimal digit, `none` on any other character
(embedding of the failure of Python `int(·, 16)`). -/
def hexDigitVal (c : Char) : Option ℕ :=
  if '0' ≤ c ∧ c ≤ '9' then some (c.toNat - 48)
  else if 'a' ≤ c ∧ c ≤ 'f' then some (c.toNat - 87)
  else if 'A' ≤ c ∧ c ≤ 'F' then some (c.toNat - 55)
  else none

/-- `int(s, 16)` on a two-character slice made of plain hex digits. -/
def hexPair (c1 c2 : Char) : Option ℕ :=
  (hexDigitVal c1).bind fun h1 => (hexDigitVal c2).map fun h2 => 16 * h1 + h2

/-- Embedding of `hex_to_rgb`: `hex_str.lstrip("0x").lstrip("#")`, then the
three 2-digit slices if exactly 6 characters remain, else `ValueError`
(`none`).  Note `lstrip` strips a character *set*, not a single marker. -/
def hex_to_rgb (s : String) : Option ColorV :=
  match pyLstrip ['#'] (pyLstrip ['0', 'x'] s.data) with
  | [c1, c2, c3, c4, c5, c6] =>
      (hexPair c1 c2).bind fun r =>
        (hexPair c3 c4).bind fun g =>
          (hexPair c5 c6).map fun b => (r, g, b)
  | _ => none

/-! ### Distances (src/tricolor.py lines 24-27)

`lab_image - palette_lab[i]` subtracts `uint8` arrays, wrapping modulo 256;
`np.linalg.norm(·, axis=2)` then takes the Euclidean norm of those wrapped
channel differences. -/

/-- `uint8` subtraction: `(a - b) mod 256` on the 8-bit residues. -/
def wrapSub (a b : ℕ) : ℕ :=
  (a % 256 + 256 - b % 256) % 256

/-- Squared Euclidean norm of the wrapped channel differences: the square of
the value `np.linalg.norm` computes for one pixel/palette pair. -/
def distSq (p c : ColorV) : ℕ :=
  wrapSub p.1 c.1 ^ 2 + wrapSub p.2.1 c.2.1 ^ 2 + wrapSub p.2.2 c.2.2 ^ 2

/-- Squared Euclidean norm of the *true* (signed) channel differences: the
distance the spec describes in section 4.2. -/
def trueDistSq (p c : ColorV) : ℤ :=
  ((p.1 : ℤ) - c.1) ^ 2 + ((p.2.1 : ℤ) - c.2.1) ^ 2 + ((p.2.2 : ℤ) - c.2.2) ^ 2

/-- `np.argmin` over the three distances of one pixel: first index attaining
the minimum.  Stated on squared distances (the square root is monotone, so
the argmin and its ties agree with the argmin of the norms). -/
def argmin3 (d0 d1 d2 : ℕ) : Fin 3 :=
  if d0 ≤ d1 ∧ d0 ≤ d2 then 0 else if d1 ≤ d2 then 1 else 2

/-! ### Exact comparison of `√s1 + √s2 ≤ √t1 + √t2`

The rebalancer ranks pixels by the sum of two Euclidean norms
(line 34).  `sqrtSumLE` decides that comparison exactly over `ℕ`. -/

/-- Decides `√s1 + √s2 ≤ √t1 + √t2` by repeated squaring. -/
def sqrtSumLE (s1 s2 t1 t2 : ℕ) : Bool :=
  let A : ℤ := (s1 : ℤ) + s2
  let B : ℤ := (t1 : ℤ) + t2
  let u : ℤ := (s1 : ℤ) * s2
  let v : ℤ := (t1 : ℤ) * t2
  let D : ℤ := B - A
  if u ≤ v then
    if 0 ≤ D then true
    else
      decide (0 ≤ 4 * u + 4 * v - D ^ 2 ∧ 64 * u * v ≤ (4 * u + 4 * v - D ^ 2) ^ 2)
  else
    if D ≤ 0 then false
    else
      decide (4 * u + 4 * v - D ^ 2 ≤ 0 ∨ (4 * u + 4 * v - D ^ 2) ^ 2 ≤ 64 * u * v)

/-! ### The float target count (src/tricolor.py line 28)

`target_pixels = int(target_fraction * lab_image.size / 3)` with
`target_fraction = 1/3`. -/

/-- Structural base-2 logarithm with fuel (`⌊log₂ n⌋` for `0 < n < 2 ^ fuel`). -/
def log2fuel : ℕ → ℕ → ℕ
  | 0, _ => 0
  | fuel + 1, n => if n ≤ 1 then 0 else log2fuel fuel (n / 2) + 1

/-- `⌊log₂ n⌋`, correct for `0 < n < 2 ^ 64`. -/
def floorLog2N (n : ℕ) : ℕ := log2fuel 64 n

/-- Exponent of a positive rational: the `e` with `2 ^ e ≤ q < 2 ^ (e + 1)`
(junk on `q ≤ 0`; correct in the range exercised by the embedding). -/
def floorLog2Q (q : ℚ) : ℤ :=
  if 1 ≤ q then (floorLog2N ⌊q⌋.toNat : ℤ)
  else
    let m := ⌊q⁻¹⌋.toNat
    let k := floorLog2N m
    if q = ((2 : ℚ) ^ k)⁻¹ then -(k : ℤ) else -(k : ℤ) - 1

/-- IEEE binary64 rounding (round to nearest, ties to even) of a rational,
for inputs in the positive normal range (the only ones reached here);
nonpositive inputs are mapped to `0`. -/
def roundDouble (q : ℚ) : ℚ :=
  if q ≤ 0 then 0
  else
    let e : ℤ := floorLog2Q q
    let scaled : ℚ := q * 2 ^ (52 - e)
    let n : ℤ := ⌊scaled⌋
    let r : ℚ := scaled - (n : ℚ)
    let m : ℤ :=
      if r < 1 / 2 then n
      else if 1 / 2 < r then n + 1
      else if n % 2 = 0 then n else n + 1
    (m : ℚ) * 2 ^ (e - 52)

/-- The binary64 value of the Python literal `1/3`. -/
def oneThirdD : ℚ := 6004799503160661 / 2 ^ 54

/-- Python `int(·)` on a float value: truncation toward zero. -/
def pyTrunc (q : ℚ) : ℤ :=
  if q < 0 then -⌊-q⌋ else ⌊q⌋

/-- Embedding of `int(target_fraction * lab_image.size / 3)`:
the integer `size` is converted to binary64, multiplied by the binary64
constant `1/3`, divided by 3, each step rounding to nearest, and the result
truncated. -/
def targetPixels (size : ℕ) : ℤ :=
  pyTrunc (roundDouble (roundDouble (oneThirdD * roundDouble (size : ℚ)) / 3))


/-! ### The assignment map and the rebalancer (src/tricolor.py lines 21-40) -/

/-- Pixel coordinates in row-major (C) order, the order in which
`np.argwhere` lists the matches of a mask. -/
def positions (Hh Ww : ℕ) : List (Fin Hh × Fin Ww) :=
  (List.finRange Hh).product (List.finRange Ww)

/-- `assignments = np.argmin(distances, axis=2)` (lines 24-27). -/
def assignRaw (Hh Ww : ℕ) (img : Fin Hh → Fin Ww → ColorV) (palLab : Fin 3 → ColorV) :
    Fin Hh → Fin Ww → Fin 3 := fun r c =>
  argmin3 (distSq (img r c) (palLab 0)) (distSq (img r c) (palLab 1))
    (distSq (img r c) (palLab 2))

/-- `np.sum(assignments == i)`: the number of pixels currently assigned to
palette index `i`. -/
def countA (Hh Ww : ℕ) (a : Fin Hh → Fin Ww → Fin 3) (i : Fin 3) : ℕ :=
  ((positions Hh Ww).filter fun p => a p.1 p.2 = i).length

/-- The sort key relation of line 34: pixel `p` precedes pixel `q` when
`d(p, i+1) + d(p, i+2) ≤ d(q, i+1) + d(q, i+2)` (sums of Euclidean norms,
decided exactly by `sqrtSumLE`). -/
def keyRel (Hh Ww : ℕ) (img : Fin Hh → Fin Ww → ColorV) (palLab : Fin 3 → ColorV)
    (i : Fin 3) (p q : Fin Hh × Fin Ww) : Prop :=
  sqrtSumLE (distSq (img p.1 p.2) (palLab (i + 1))) (distSq (img p.1 p.2) (palLab (i + 2)))
    (distSq (img q.1 q.2) (palLab (i + 1))) (distSq (img q.1 q.2) (palLab (i + 2))) = true

instance keyRelDecidable (Hh Ww : ℕ) (img : Fin Hh → Fin Ww → ColorV)
    (palLab : Fin 3 → ColorV) (i : Fin 3) : DecidableRel (keyRel Hh Ww img palLab i) :=
  fun _ _ => inferInstanceAs (Decidable (_ = true))

/-- One iteration of the rebalancing loop (lines 30-36) for index `i`:
if `excess = count(i) - T > 0`, the `excess` pixels currently assigned to
`i` with the smallest combined alternative distance are reassigned to
`(i+1) mod 3`.  `np.argsort` leaves the relative order of equal keys
unspecified; the embedding fixes the stable order of `insertionSort`. -/
def rebalanceStep (Hh Ww : ℕ) (img : Fin Hh → Fin Ww → ColorV) (palLab : Fin 3 → ColorV)
    (T : ℤ) (i : Fin 3) (a : Fin Hh → Fin Ww → Fin 3) : Fin Hh → Fin Ww → Fin 3 :=
  let S := (positions Hh Ww).filter fun p => a p.1 p.2 = i
  if 0 < (S.length : ℤ) - T then
    let sel := (S.insertionSort (keyRel Hh Ww img palLab i)).take ((S.length : ℤ) - T).toNat
    fun r c => if (r, c) ∈ sel then i + 1 else a r c
  else a

/-- The full rebalancing loop `for i in range(3)` (line 29). -/
def rebalanced (Hh Ww : ℕ) (img : Fin Hh → Fin Ww → ColorV) (palLab : Fin 3 → ColorV)
    (T : ℤ) (a : Fin Hh → Fin Ww → Fin 3) : Fin Hh → Fin Ww → Fin 3 :=
  rebalanceStep Hh Ww img palLab T 2
    (rebalanceStep Hh Ww img palLab T 1 (rebalanceStep Hh Ww img palLab T 0 a))

/-- Lines 37-39: `normalized_image` starts as zeros and, for each `i`,
the pixels with `assignments == i` are painted `palette_rgb[i]`. -/
def paintImage (Hh Ww : ℕ) (palRgb : Fin 3 → ColorV) (a : Fin Hh → Fin Ww → Fin 3) :
    Fin Hh → Fin Ww → ColorV := fun r c =>
  (List.finRange 3).foldl (fun acc i => if a r c = i then palRgb i else acc) (0, 0, 0)

/-- Embedding of `normalize_color_distribution` (lines 21-40).  `rgbToLab`
abstracts the external `rgb_to_lab` collaborator (`cv2.cvtColor` on a single
color, lines 15-19). -/
def normalize_color_distribution (Hh Ww : ℕ) (labImage : Fin Hh → Fin Ww → ColorV)
    (palRgb : Fin 3 → ColorV) (rgbToLab : ColorV → ColorV) : Fin Hh → Fin Ww → ColorV :=
  let palLab : Fin 3 → ColorV := fun i => rgbToLab (palRgb i)
  paintImage Hh Ww palRgb
    (rebalanced Hh Ww labImage palLab (targetPixels (Hh * Ww * 3))
      (assignRaw Hh Ww labImage palLab))

/-! ### process_image and the main loop (src/tricolor.py lines 42-58, 105-106) -/

/-- A decoded raster image. -/
structure RawImage where
  Hh : ℕ
  Ww : ℕ
  pix : Fin Hh → Fin Ww → ColorV

/-- Observable outcome of `process_image` for one input path. -/
inductive ProcResult where
  | skipped (msg : String)
  | saved (out : RawImage)

/-- Embedding of `process_image`: `decode` abstracts `cv2.imread` (`none` =
missing or undecodable file); `toLab` abstracts the per-pixel
`BGR → RGB → LAB` conversions; a `None` decode is reported and skipped. -/
def process_image (decode : String → Option RawImage) (toLab : ColorV → ColorV)
    (rgbToLab : ColorV → ColorV) (colors : Fin 3 → ColorV) (path : String) : ProcResult :=
  match decode path with
  | none => .skipped ("Error: Unable to load image " ++ path)
  | some im =>
      .saved ⟨im.Hh, im.Ww,
        normalize_color_distribution im.Hh im.Ww (fun r c => toLab (im.pix r c))
          colors rgbToLab⟩

/-- The batch loop of `main` (lines 105-106): every input path is processed,
regardless of failures on earlier paths. -/
def mainBatch (decode : String → Option RawImage) (toLab : ColorV → ColorV)
    (rgbToLab : ColorV → ColorV) (colors : Fin 3 → ColorV) (paths : List String) :
    List ProcResult :=
  paths.map (process_image decode toLab rgbToLab colors)

/-! Concrete instances used by witnesses and counterexamples. -/

/-- The all-black 2-by-2 LAB image. -/
def imgBlack2 : Fin 2 → Fin 2 → ColorV := fun _ _ => (0, 0, 0)

/-- The all-black 3-by-3 LAB image. -/
def imgBlack3 : Fin 3 → Fin 3 → ColorV := fun _ _ => (0, 0, 0)

/-- The palette black, mid gray, white in RGB. -/
def palBW : Fin 3 → ColorV := ![(0, 0, 0), (128, 128, 128), (255, 255, 255)]

/-- LAB values of black, mid gray and white as produced by
`cv2.cvtColor(·, cv2.COLOR_RGB2LAB)` on 8-bit data. -/
def palBWLab : Fin 3 → ColorV := ![(0, 128, 128), (137, 128, 128), (255, 128, 128)]

/-- A conversion function agreeing with `cv2` on the three palette colors. -/
def cvtBW : ColorV → ColorV := fun c =>
  if c = (0, 0, 0) then (0, 128, 128)
  else if c = (128, 128, 128) then (137, 128, 128)
  else if c = (255, 255, 255) then (255, 128, 128)
  else c


/-! ### Correctness of `sqrtSumLE` -/

/-- Comparison of nonnegative reals through their squares. -/
lemma le_iff_sq_le {a b : ℝ} (ha : 0 ≤ a) (hb : 0 ≤ b) : a ≤ b ↔ a ^ 2 ≤ b ^ 2 :=
  ⟨fun h => pow_le_pow_left₀ ha h 2, fun h => le_of_pow_le_pow_left₀ two_ne_zero hb h⟩

/-- Square of a sum of two square roots. -/
lemma sqrt_add_sq {x y : ℝ} (hx : 0 ≤ x) (hy : 0 ≤ y) :
    (Real.sqrt x + Real.sqrt y) ^ 2 = x + y + 2 * Real.sqrt (x * y) := by
  rw [add_sq, Real.sq_sqrt hx, Real.sq_sqrt hy, Real.sqrt_mul hx]
  ring

/-- `sqrtSumLE` decides the comparison of the two sums of square roots. -/
theorem sqrtSumLE_iff (s1 s2 t1 t2 : ℕ) :
    sqrtSumLE s1 s2 t1 t2 = true ↔
      Real.sqrt s1 + Real.sqrt s2 ≤ Real.sqrt t1 + Real.sqrt t2 := by
  have hU : (0 : ℝ) ≤ (s1 : ℝ) * s2 := by positivity
  have hV : (0 : ℝ) ≤ (t1 : ℝ) * t2 := by positivity
  have hsU := Real.sqrt_nonneg ((s1 : ℝ) * s2)
  have hsV := Real.sqrt_nonneg ((t1 : ℝ) * t2)
  have hsW := Real.sqrt_nonneg (((s1 : ℝ) * s2) * ((t1 : ℝ) * t2))
  have hUsq : Real.sqrt ((s1 : ℝ) * s2) ^ 2 = (s1 : ℝ) * s2 := Real.sq_sqrt hU
  have hVsq : Real.sqrt ((t1 : ℝ) * t2) ^ 2 = (t1 : ℝ) * t2 := Real.sq_sqrt hV
  have hWsq : Real.sqrt (((s1 : ℝ) * s2) * ((t1 : ℝ) * t2)) ^ 2 =
      ((s1 : ℝ) * s2) * ((t1 : ℝ) * t2) := Real.sq_sqrt (by positivity)
  have hUVW : Real.sqrt ((s1 : ℝ) * s2) * Real.sqrt ((t1 : ℝ) * t2) =
      Real.sqrt (((s1 : ℝ) * s2) * ((t1 : ℝ) * t2)) := (Real.sqrt_mul hU _).symm
  have hexpand : (2 * Real.sqrt ((s1 : ℝ) * s2) - 2 * Real.sqrt ((t1 : ℝ) * t2)) ^ 2 =
      4 * ((s1 : ℝ) * s2) + 4 * ((t1 : ℝ) * t2) -
        8 * Real.sqrt (((s1 : ℝ) * s2) * ((t1 : ℝ) * t2)) := by
    have h1 : (2 * Real.sqrt ((s1 : ℝ) * s2) - 2 * Real.sqrt ((t1 : ℝ) * t2)) ^ 2 =
        4 * Real.sqrt ((s1 : ℝ) * s2) ^ 2 -
          8 * (Real.sqrt ((s1 : ℝ) * s2) * Real.sqrt ((t1 : ℝ) * t2)) +
          4 * Real.sqrt ((t1 : ℝ) * t2) ^ 2 := by ring
    rw [h1, hUsq, hVsq, hUVW]
    ring
  have hexpand2 : (2 * Real.sqrt ((t1 : ℝ) * t2) - 2 * Real.sqrt ((s1 : ℝ) * s2)) ^ 2 =
      4 * ((s1 : ℝ) * s2) + 4 * ((t1 : ℝ) * t2) -
        8 * Real.sqrt (((s1 : ℝ) * s2) * ((t1 : ℝ) * t2)) := by
    have h1 : (2 * Real.sqrt ((t1 : ℝ) * t2) - 2 * Real.sqrt ((s1 : ℝ) * s2)) ^ 2 =
        (2 * Real.sqrt ((s1 : ℝ) * s2) - 2 * Real.sqrt ((t1 : ℝ) * t2)) ^ 2 := by ring
    rw [h1, hexpand]
  have hchar : (Real.sqrt s1 + Real.sqrt s2 ≤ Real.sqrt t1 + Real.sqrt t2) ↔
      2 * Real.sqrt ((s1 : ℝ) * s2) - 2 * Real.sqrt ((t1 : ℝ) * t2) ≤
        ((t1 : ℝ) + t2) - ((s1 : ℝ) + s2) := by
    rw [le_iff_sq_le (by positivity) (by positivity),
      sqrt_add_sq (by positivity) (by positivity), sqrt_add_sq (by positivity) (by positivity)]
    constructor <;> intro h <;> linarith
  rw [hchar]
  simp only [sqrtSumLE]
  split_ifs with huv hD hD2
  · -- u ≤ v and 0 ≤ D : always true
    simp only [true_iff]
    have hm : Real.sqrt ((s1 : ℝ) * s2) ≤ Real.sqrt ((t1 : ℝ) * t2) :=
      Real.sqrt_le_sqrt (by exact_mod_cast huv)
    have hd : s1 + s2 ≤ t1 + t2 := by omega
    have hd' : ((s1 : ℝ) + s2) ≤ ((t1 : ℝ) + t2) := by exact_mod_cast hd
    linarith
  · -- u ≤ v and D < 0
    rw [decide_eq_true_eq]
    have hm : Real.sqrt ((s1 : ℝ) * s2) ≤ Real.sqrt ((t1 : ℝ) * t2) :=
      Real.sqrt_le_sqrt (by exact_mod_cast huv)
    have hd : t1 + t2 < s1 + s2 := by omega
    have hd' : ((t1 : ℝ) + t2) < ((s1 : ℝ) + s2) := by exact_mod_cast hd
    have castX : ((4 * ((s1 : ℤ) * s2) + 4 * ((t1 : ℤ) * t2) -
        (((t1 : ℤ) + t2) - ((s1 : ℤ) + s2)) ^ 2 : ℤ) : ℝ) =
        4 * ((s1 : ℝ) * s2) + 4 * ((t1 : ℝ) * t2) -
          (((t1 : ℝ) + t2) - ((s1 : ℝ) + s2)) ^ 2 := by push_cast; ring
    have hEflip : (((s1 : ℝ) + s2) - ((t1 : ℝ) + t2)) ^ 2 =
        (((t1 : ℝ) + t2) - ((s1 : ℝ) + s2)) ^ 2 := by ring
    constructor
    · rintro ⟨h0, h64⟩
      have h0' : (0 : ℝ) ≤ 4 * ((s1 : ℝ) * s2) + 4 * ((t1 : ℝ) * t2) -
          (((t1 : ℝ) + t2) - ((s1 : ℝ) + s2)) ^ 2 := by
        rw [← castX]; exact_mod_cast h0
      have h64' : 64 * (((s1 : ℝ) * s2) * ((t1 : ℝ) * t2)) ≤
          (4 * ((s1 : ℝ) * s2) + 4 * ((t1 : ℝ) * t2) -
            (((t1 : ℝ) + t2) - ((s1 : ℝ) + s2)) ^ 2) ^ 2 := by
        have h : ((64 * ((s1 : ℤ) * s2) * ((t1 : ℤ) * t2) : ℤ) : ℝ) ≤
            (((4 * ((s1 : ℤ) * s2) + 4 * ((t1 : ℤ) * t2) -
              (((t1 : ℤ) + t2) - ((s1 : ℤ) + s2)) ^ 2 : ℤ) : ℝ)) ^ 2 := by
          rw [← Int.cast_pow]; exact_mod_cast h64
        rw [castX] at h
        push_cast at h
        linarith
      have h8 : 8 * Real.sqrt (((s1 : ℝ) * s2) * ((t1 : ℝ) * t2)) ≤
          4 * ((s1 : ℝ) * s2) + 4 * ((t1 : ℝ) * t2) -
            (((t1 : ℝ) + t2) - ((s1 : ℝ) + s2)) ^ 2 := by
        refine le_of_pow_le_pow_left₀ two_ne_zero h0' ?_
        rw [mul_pow, hWsq]
        linarith
      have hEsq : (((s1 : ℝ) + s2) - ((t1 : ℝ) + t2)) ^ 2 ≤
          (2 * Real.sqrt ((t1 : ℝ) * t2) - 2 * Real.sqrt ((s1 : ℝ) * s2)) ^ 2 := by
        rw [hexpand2, hEflip]
        linarith
      have := le_of_pow_le_pow_left₀ two_ne_zero (by linarith :
        (0 : ℝ) ≤ 2 * Real.sqrt ((t1 : ℝ) * t2) - 2 * Real.sqrt ((s1 : ℝ) * s2)) hEsq
      linarith
    · intro h
      have hE2 : ((s1 : ℝ) + s2) - ((t1 : ℝ) + t2) ≤
          2 * Real.sqrt ((t1 : ℝ) * t2) - 2 * Real.sqrt ((s1 : ℝ) * s2) := by linarith
      have hEpos : (0 : ℝ) < ((s1 : ℝ) + s2) - ((t1 : ℝ) + t2) := by linarith
      have hsq2 : (((s1 : ℝ) + s2) - ((t1 : ℝ) + t2)) ^ 2 ≤
          (2 * Real.sqrt ((t1 : ℝ) * t2) - 2 * Real.sqrt ((s1 : ℝ) * s2)) ^ 2 :=
        pow_le_pow_left₀ (le_of_lt hEpos) hE2 2
      rw [hexpand2, hEflip] at hsq2
      have h8 : 8 * Real.sqrt (((s1 : ℝ) * s2) * ((t1 : ℝ) * t2)) ≤
          4 * ((s1 : ℝ) * s2) + 4 * ((t1 : ℝ) * t2) -
            (((t1 : ℝ) + t2) - ((s1 : ℝ) + s2)) ^ 2 := by linarith
      have h0' : (0 : ℝ) ≤ 4 * ((s1 : ℝ) * s2) + 4 * ((t1 : ℝ) * t2) -
          (((t1 : ℝ) + t2) - ((s1 : ℝ) + s2)) ^ 2 := by linarith
      have h64' : 64 * (((s1 : ℝ) * s2) * ((t1 : ℝ) * t2)) ≤
          (4 * ((s1 : ℝ) * s2) + 4 * ((t1 : ℝ) * t2) -
            (((t1 : ℝ) + t2) - ((s1 : ℝ) + s2)) ^ 2) ^ 2 := by
        have h9 := pow_le_pow_left₀ (by positivity :
          (0 : ℝ) ≤ 8 * Real.sqrt (((s1 : ℝ) * s2) * ((t1 : ℝ) * t2))) h8 2
        rw [mul_pow, hWsq] at h9
        linarith
      constructor
      · rw [← castX] at h0'; exact_mod_cast h0'
      · have h : ((64 * ((s1 : ℤ) * s2) * ((t1 : ℤ) * t2) : ℤ) : ℝ) ≤
            (((4 * ((s1 : ℤ) * s2) + 4 * ((t1 : ℤ) * t2) -
              (((t1 : ℤ) + t2) - ((s1 : ℤ) + s2)) ^ 2 : ℤ) : ℝ)) ^ 2 := by
          rw [castX]; push_cast; push_cast at h64'; linarith
        rw [← Int.cast_pow] at h
        exact_mod_cast h
  · -- v < u and D ≤ 0 : always false
    simp only [false_iff, not_le]
    have hm : Real.sqrt ((t1 : ℝ) * t2) < Real.sqrt ((s1 : ℝ) * s2) :=
      Real.sqrt_lt_sqrt hV (by exact_mod_cast (not_le.mp huv))
    have hd : t1 + t2 ≤ s1 + s2 := by omega
    have hd' : ((t1 : ℝ) + t2) ≤ ((s1 : ℝ) + s2) := by exact_mod_cast hd
    linarith
  · -- v < u and 0 < D
    rw [decide_eq_true_eq]
    have hm : Real.sqrt ((t1 : ℝ) * t2) < Real.sqrt ((s1 : ℝ) * s2) :=
      Real.sqrt_lt_sqrt hV (by exact_mod_cast (not_le.mp huv))
    have hd : s1 + s2 < t1 + t2 := by omega
    have hd' : ((s1 : ℝ) + s2) < ((t1 : ℝ) + t2) := by exact_mod_cast hd
    have castY : ((4 * ((s1 : ℤ) * s2) + 4 * ((t1 : ℤ) * t2) -
        (((t1 : ℤ) + t2) - ((s1 : ℤ) + s2)) ^ 2 : ℤ) : ℝ) =
        4 * ((s1 : ℝ) * s2) + 4 * ((t1 : ℝ) * t2) -
          (((t1 : ℝ) + t2) - ((s1 : ℝ) + s2)) ^ 2 := by push_cast; ring
    constructor
    · rintro (hY | h64)
      · have hY' : 4 * ((s1 : ℝ) * s2) + 4 * ((t1 : ℝ) * t2) -
            (((t1 : ℝ) + t2) - ((s1 : ℝ) + s2)) ^ 2 ≤ 0 := by
          rw [← castY]; exact_mod_cast hY
        have hsq2 : (2 * Real.sqrt ((s1 : ℝ) * s2) - 2 * Real.sqrt ((t1 : ℝ) * t2)) ^ 2 ≤
            (((t1 : ℝ) + t2) - ((s1 : ℝ) + s2)) ^ 2 := by
          rw [hexpand]
          linarith
        have := le_of_pow_le_pow_left₀ two_ne_zero (by linarith :
          (0 : ℝ) ≤ ((t1 : ℝ) + t2) - ((s1 : ℝ) + s2)) hsq2
        linarith
      · have h64' : (4 * ((s1 : ℝ) * s2) + 4 * ((t1 : ℝ) * t2) -
            (((t1 : ℝ) + t2) - ((s1 : ℝ) + s2)) ^ 2) ^ 2 ≤
            64 * (((s1 : ℝ) * s2) * ((t1 : ℝ) * t2)) := by
          have h : (((4 * ((s1 : ℤ) * s2) + 4 * ((t1 : ℤ) * t2) -
              (((t1 : ℤ) + t2) - ((s1 : ℤ) + s2)) ^ 2 : ℤ) : ℝ)) ^ 2 ≤
              ((64 * ((s1 : ℤ) * s2) * ((t1 : ℤ) * t2) : ℤ) : ℝ) := by
            rw [← Int.cast_pow]; exact_mod_cast h64
          rw [castY] at h
          push_cast at h
          linarith
        by_cases hY : 4 * ((s1 : ℝ) * s2) + 4 * ((t1 : ℝ) * t2) -
            (((t1 : ℝ) + t2) - ((s1 : ℝ) + s2)) ^ 2 ≤ 0
        · have hsq2 : (2 * Real.sqrt ((s1 : ℝ) * s2) - 2 * Real.sqrt ((t1 : ℝ) * t2)) ^ 2 ≤
              (((t1 : ℝ) + t2) - ((s1 : ℝ) + s2)) ^ 2 := by
            rw [hexpand]
            linarith
          have := le_of_pow_le_pow_left₀ two_ne_zero (by linarith :
            (0 : ℝ) ≤ ((t1 : ℝ) + t2) - ((s1 : ℝ) + s2)) hsq2
          linarith
        · push_neg at hY
          have hYle : 4 * ((s1 : ℝ) * s2) + 4 * ((t1 : ℝ) * t2) -
              (((t1 : ℝ) + t2) - ((s1 : ℝ) + s2)) ^ 2 ≤
              8 * Real.sqrt (((s1 : ℝ) * s2) * ((t1 : ℝ) * t2)) := by
            refine le_of_pow_le_pow_left₀ two_ne_zero (by positivity) ?_
            rw [mul_pow, hWsq]
            linarith
          have hsq2 : (2 * Real.sqrt ((s1 : ℝ) * s2) - 2 * Real.sqrt ((t1 : ℝ) * t2)) ^ 2 ≤
              (((t1 : ℝ) + t2) - ((s1 : ℝ) + s2)) ^ 2 := by
            rw [hexpand]
            linarith
          have := le_of_pow_le_pow_left₀ two_ne_zero (by linarith :
            (0 : ℝ) ≤ ((t1 : ℝ) + t2) - ((s1 : ℝ) + s2)) hsq2
          linarith
    · intro h
      have hpos : (0 : ℝ) ≤ 2 * Real.sqrt ((s1 : ℝ) * s2) - 2 * Real.sqrt ((t1 : ℝ) * t2) := by
        linarith
      have hsq2 : (2 * Real.sqrt ((s1 : ℝ) * s2) - 2 * Real.sqrt ((t1 : ℝ) * t2)) ^ 2 ≤
          (((t1 : ℝ) + t2) - ((s1 : ℝ) + s2)) ^ 2 := pow_le_pow_left₀ hpos h 2
      rw [hexpand] at hsq2
      have h8 : 4 * ((s1 : ℝ) * s2) + 4 * ((t1 : ℝ) * t2) -
          (((t1 : ℝ) + t2) - ((s1 : ℝ) + s2)) ^ 2 ≤
          8 * Real.sqrt (((s1 : ℝ) * s2) * ((t1 : ℝ) * t2)) := by linarith
      by_cases hY : (4 * ((s1 : ℤ) * s2) + 4 * ((t1 : ℤ) * t2) -
          (((t1 : ℤ) + t2) - ((s1 : ℤ) + s2)) ^ 2 : ℤ) ≤ 0
      · exact Or.inl hY
      · right
        push_neg at hY
        have hY' : (0 : ℝ) ≤ 4 * ((s1 : ℝ) * s2) + 4 * ((t1 : ℝ) * t2) -
            (((t1 : ℝ) + t2) - ((s1 : ℝ) + s2)) ^ 2 := by
          rw [← castY]
          exact_mod_cast le_of_lt hY
        have h64' : (4 * ((s1 : ℝ) * s2) + 4 * ((t1 : ℝ) * t2) -
            (((t1 : ℝ) + t2) - ((s1 : ℝ) + s2)) ^ 2) ^ 2 ≤
            64 * (((s1 : ℝ) * s2) * ((t1 : ℝ) * t2)) := by
          have h9 := pow_le_pow_left₀ hY' h8 2
          rw [mul_pow, hWsq] at h9
          linarith
        have h : (((4 * ((s1 : ℤ) * s2) + 4 * ((t1 : ℤ) * t2) -
            (((t1 : ℤ) + t2) - ((s1 : ℤ) + s2)) ^ 2 : ℤ) : ℝ)) ^ 2 ≤
            ((64 * ((s1 : ℤ) * s2) * ((t1 : ℤ) * t2) : ℤ) : ℝ) := by
          rw [castY]; push_cast; push_cast at h64'; linarith
        rw [← Int.cast_pow] at h
        exact_mod_cast h


/-! ### Exactness of the float target computation -/

lemma log2fuel_spec : ∀ (fuel n : ℕ), 1 ≤ n → n < 2 ^ fuel →
    2 ^ log2fuel fuel n ≤ n ∧ n < 2 ^ (log2fuel fuel n + 1) := by
  intro fuel
  induction fuel with
  | zero => intro n h1 h2; simp at h2; omega
  | succ f ih =>
      intro n h1 h2
      by_cases hle : n ≤ 1
      · have hn : n = 1 := by omega
        subst hn
        simp [log2fuel]
      · have hn2 : 1 ≤ n / 2 := by omega
        have hn2' : n / 2 < 2 ^ f := by
          have hp : 2 ^ (f + 1) = 2 * 2 ^ f := by ring
          rw [hp] at h2
          omega
        obtain ⟨ha, hb⟩ := ih (n / 2) hn2 hn2'
        simp only [log2fuel, if_neg hle]
        have hp1 : 2 ^ (log2fuel f (n / 2) + 1) = 2 * 2 ^ log2fuel f (n / 2) := by ring
        have hp2 : 2 ^ (log2fuel f (n / 2) + 1 + 1) = 4 * 2 ^ log2fuel f (n / 2) := by ring
        rw [hp1] at hb ⊢
        rw [hp2]
        omega

lemma floorLog2N_spec (n : ℕ) (h1 : 1 ≤ n) (h2 : n < 2 ^ 64) :
    2 ^ floorLog2N n ≤ n ∧ n < 2 ^ (floorLog2N n + 1) :=
  log2fuel_spec 64 n h1 h2

/-- On `1 ≤ q < 2 ^ 62`, `floorLog2Q` returns the binary exponent of `q`. -/
lemma floorLog2Q_spec (q : ℚ) (h1 : 1 ≤ q) (h2 : q < 2 ^ 62) :
    ∃ k : ℕ, floorLog2Q q = (k : ℤ) ∧ k ≤ 61 ∧ (2 : ℚ) ^ k ≤ q ∧ q < (2 : ℚ) ^ (k + 1) := by
  have hfl1 : (1 : ℤ) ≤ ⌊q⌋ := Int.le_floor.mpr (by exact_mod_cast h1)
  set n : ℕ := ⌊q⌋.toNat with hn
  have hnz : (n : ℤ) = ⌊q⌋ := Int.toNat_of_nonneg (by omega)
  have hn1 : 1 ≤ n := by omega
  have hnq : (n : ℚ) ≤ q := by
    have := Int.floor_le q
    rw [← hnz] at this
    exact_mod_cast this
  have hqn : q < (n : ℚ) + 1 := by
    have := Int.lt_floor_add_one q
    rw [← hnz] at this
    exact_mod_cast this
  have hn62 : n < 2 ^ 62 := by
    have : (n : ℚ) < 2 ^ 62 := lt_of_le_of_lt hnq h2
    exact_mod_cast this
  obtain ⟨hb1, hb2⟩ := floorLog2N_spec n hn1 (lt_trans hn62 (by norm_num))
  refine ⟨floorLog2N n, ?_, ?_, ?_, ?_⟩
  · simp only [floorLog2Q, if_pos h1]
  · by_contra hcon
    have h62 : 62 ≤ floorLog2N n := by omega
    have : (2 : ℕ) ^ 62 ≤ 2 ^ floorLog2N n :=
      Nat.pow_le_pow_right (by norm_num) h62
    omega
  · calc ((2 : ℚ) ^ floorLog2N n) = ((2 ^ floorLog2N n : ℕ) : ℚ) := by push_cast; ring
      _ ≤ (n : ℚ) := by exact_mod_cast hb1
      _ ≤ q := hnq
  · calc q < (n : ℚ) + 1 := hqn
      _ ≤ ((2 ^ (floorLog2N n + 1) : ℕ) : ℚ) := by exact_mod_cast hb2
      _ = (2 : ℚ) ^ (floorLog2N n + 1) := by push_cast; ring

/-- `roundDouble` is exact on integers below `2 ^ 53`. -/
lemma roundDouble_int (m : ℕ) (h1 : 1 ≤ m) (h2 : m < 2 ^ 53) :
    roundDouble (m : ℚ) = m := by
  have hq1 : (1 : ℚ) ≤ (m : ℚ) := by exact_mod_cast h1
  have hq2 : (m : ℚ) < 2 ^ 62 := by
    calc (m : ℚ) < ((2 ^ 53 : ℕ) : ℚ) := by exact_mod_cast h2
      _ ≤ 2 ^ 62 := by norm_num
  obtain ⟨k, he, _hk61, hb1, hb2⟩ := floorLog2Q_spec m hq1 hq2
  have hbn1 : 2 ^ k ≤ m := by exact_mod_cast hb1
  have hk52 : k ≤ 52 := by
    by_contra hcon
    have : (2 : ℕ) ^ 53 ≤ 2 ^ k := Nat.pow_le_pow_right (by norm_num) (by omega)
    omega
  have hnot : ¬ (m : ℚ) ≤ 0 := by push_neg; linarith
  have hcast : (m : ℚ) * 2 ^ ((52 : ℤ) - k) = ((m * 2 ^ (52 - k) : ℕ) : ℚ) := by
    rw [(by omega : (52 : ℤ) - k = ((52 - k : ℕ) : ℤ)), zpow_natCast]
    push_cast
    ring
  simp only [roundDouble, if_neg hnot, he, hcast, Int.floor_natCast]
  rw [if_pos (by norm_num : ((m * 2 ^ (52 - k) : ℕ) : ℚ) - ((m * 2 ^ (52 - k) : ℕ) : ℤ) < 1 / 2)]
  push_cast
  rw [mul_assoc, ← zpow_natCast (2 : ℚ) (52 - k), ← zpow_add₀ (two_ne_zero)]
  rw [(by omega : ((52 - k : ℕ) : ℤ) + ((k : ℤ) - 52) = 0), zpow_zero, mul_one]

/-- Rounding error bound: `roundDouble` changes its input by at most half an
ulp, which is at most `q / 2 ^ 53`. -/
lemma abs_roundDouble_sub (q : ℚ) (h1 : 1 ≤ q) (h2 : q < 2 ^ 62) :
    |roundDouble q - q| ≤ q / 2 ^ 53 := by
  obtain ⟨k, he, _hk61, hb1, hb2⟩ := floorLog2Q_spec q h1 h2
  have hnot : ¬ q ≤ 0 := by push_neg; linarith
  simp only [roundDouble, if_neg hnot, he]
  set s : ℚ := q * 2 ^ ((52 : ℤ) - k) with hs
  have hfr0 : (0 : ℚ) ≤ s - ⌊s⌋ := sub_nonneg.mpr (Int.floor_le s)
  have hfr1 : s - ⌊s⌋ < 1 := by
    have := Int.lt_floor_add_one s
    linarith
  have hmd : |(((if s - ⌊s⌋ < 1 / 2 then ⌊s⌋
      else if 1 / 2 < s - ⌊s⌋ then ⌊s⌋ + 1
      else if ⌊s⌋ % 2 = 0 then ⌊s⌋ else ⌊s⌋ + 1 : ℤ)) : ℚ) - s| ≤ 1 / 2 := by
    split_ifs with hc1 hc2 hc3
    · rw [abs_sub_comm, abs_of_nonneg hfr0]
      linarith
    · rw [abs_of_nonneg (by push_cast; linarith)]
      push_cast
      linarith
    · have : s - ⌊s⌋ = 1 / 2 := by linarith
      rw [abs_sub_comm, abs_of_nonneg hfr0]
      linarith
    · have : s - ⌊s⌋ = 1 / 2 := by linarith
      rw [abs_of_nonneg (by push_cast; linarith)]
      push_cast
      linarith
  have hzpos : (0 : ℚ) < (2 : ℚ) ^ ((k : ℤ) - 52) := zpow_pos (by norm_num) _
  have hqs : s * 2 ^ ((k : ℤ) - 52) = q := by
    rw [hs, mul_assoc, ← zpow_add₀ (two_ne_zero : (2 : ℚ) ≠ 0)]
    rw [(by omega : ((52 : ℤ) - k) + ((k : ℤ) - 52) = 0), zpow_zero, mul_one]
  calc |(((if s - ⌊s⌋ < 1 / 2 then (⌊s⌋ : ℤ)
        else if 1 / 2 < s - ⌊s⌋ then ⌊s⌋ + 1
        else if ⌊s⌋ % 2 = 0 then ⌊s⌋ else ⌊s⌋ + 1) : ℤ) : ℚ) * 2 ^ ((k : ℤ) - 52) - q|
      = |(((if s - ⌊s⌋ < 1 / 2 then (⌊s⌋ : ℤ)
        else if 1 / 2 < s - ⌊s⌋ then ⌊s⌋ + 1
        else if ⌊s⌋ % 2 = 0 then ⌊s⌋ else ⌊s⌋ + 1) : ℤ) : ℚ) - s| * 2 ^ ((k : ℤ) - 52) := by
        rw [← hqs, ← sub_mul, abs_mul, abs_of_pos hzpos]
    _ ≤ (1 / 2) * 2 ^ ((k : ℤ) - 52) := mul_le_mul_of_nonneg_right hmd (le_of_lt hzpos)
    _ ≤ q / 2 ^ 53 := by
        have hk' : (2 : ℚ) ^ (k : ℤ) ≤ q := by
          rw [zpow_natCast]
          exact hb1
        have hsplit : (1 / 2 : ℚ) * 2 ^ ((k : ℤ) - 52) = 2 ^ (k : ℤ) / 2 ^ 53 := by
          rw [(by omega : (k : ℤ) - 52 = (k : ℤ) - 53 + 1)]
          rw [zpow_add₀ (two_ne_zero : (2 : ℚ) ≠ 0),
            zpow_sub₀ (two_ne_zero : (2 : ℚ) ≠ 0)]
          norm_num
          ring
        rw [hsplit]
        exact div_le_div_of_nonneg_right hk' (by norm_num) |>.trans_eq rfl

/-- The first rounded product: `fl(1/3) * t` rounds back to exactly `t`.
The real product is `t * (2 ^ 54 - 1) / 2 ^ 54`, within half an ulp below
`t`, and on the tie the even mantissa wins, so the result is `t`. -/
lemma roundDouble_q1 (t : ℕ) (h2t : 2 ≤ t) (ht : t ≤ 2 ^ 53) :
    roundDouble ((t : ℚ) * (2 ^ 54 - 1) / 2 ^ 54) = t := by
  set q : ℚ := (t : ℚ) * (2 ^ 54 - 1) / 2 ^ 54 with hqdef
  have hq' : q = (t : ℚ) - (t : ℚ) / 2 ^ 54 := by rw [hqdef]; ring
  have htQ : (2 : ℚ) ≤ (t : ℚ) := by exact_mod_cast h2t
  have htQ' : (t : ℚ) ≤ 2 ^ 53 := by exact_mod_cast ht
  have hd54 : (t : ℚ) / 2 ^ 54 < 1 := by
    rw [div_lt_one (by norm_num)]
    calc (t : ℚ) ≤ 2 ^ 53 := htQ'
      _ < 2 ^ 54 := by norm_num
  have hd54' : (0 : ℚ) < (t : ℚ) / 2 ^ 54 := by
    apply div_pos (by linarith) (by norm_num)
  have h1 : (1 : ℚ) ≤ q := by rw [hq']; linarith
  have hfl : ⌊q⌋ = (t : ℤ) - 1 := by
    rw [Int.floor_eq_iff]
    push_cast
    rw [hq']
    constructor <;> linarith
  have htm1 : 1 ≤ t - 1 := by omega
  obtain ⟨hk1, hk2⟩ := floorLog2N_spec (t - 1)
    htm1 (lt_trans (by omega : t - 1 < 2 ^ 53) (by norm_num))
  set k := floorLog2N (t - 1) with hkdef
  have hk52 : k ≤ 52 := by
    by_contra hcon
    have : (2 : ℕ) ^ 53 ≤ 2 ^ k := Nat.pow_le_pow_right (by norm_num) (by omega)
    omega
  have ht2k1 : t ≤ 2 ^ (k + 1) := by omega
  have he : floorLog2Q q = (k : ℤ) := by
    have harg : ((t : ℤ) - 1).toNat = t - 1 := by omega
    simp only [floorLog2Q, if_pos h1, hfl, harg]
  have hnot : ¬ q ≤ 0 := by push_neg; linarith
  have hpowsplit : (2 : ℚ) ^ (52 - k) * 2 ^ (k + 2) = 2 ^ 54 := by
    rw [← pow_add]
    congr 1
    omega
  have hMcast : q * 2 ^ ((52 : ℤ) - k) =
      ((t * 2 ^ (52 - k) : ℕ) : ℚ) - (t : ℚ) / 2 ^ (k + 2) := by
    rw [(by omega : (52 : ℤ) - k = ((52 - k : ℕ) : ℤ)), zpow_natCast, hq']
    push_cast
    rw [sub_mul]
    congr 1
    rw [div_mul_eq_mul_div, div_eq_div_iff (by norm_num) (by positivity)]
    rw [mul_assoc, hpowsplit]
  set d : ℚ := (t : ℚ) / 2 ^ (k + 2) with hddef
  have hd_pos : 0 < d := by
    rw [hddef]
    apply div_pos (by linarith) (by positivity)
  have htQ2 : (t : ℚ) ≤ 2 ^ (k + 1) := by exact_mod_cast ht2k1
  have hd_le : d ≤ 1 / 2 := by
    rw [hddef, div_le_iff₀ (by positivity)]
    calc (t : ℚ) ≤ 2 ^ (k + 1) := htQ2
      _ = 1 / 2 * 2 ^ (k + 2) := by ring
  set M : ℕ := t * 2 ^ (52 - k) with hMdef
  have hfloor2 : ⌊q * 2 ^ ((52 : ℤ) - k)⌋ = (M : ℤ) - 1 := by
    rw [hMcast, Int.floor_eq_iff]
    push_cast
    constructor
    · linarith
    · linarith
  have hfinal : (((M : ℤ) - 1 + 1 : ℤ) : ℚ) * 2 ^ ((k : ℤ) - 52) = (t : ℚ) := by
    push_cast
    rw [sub_add_cancel]
    rw [hMdef]
    push_cast
    rw [mul_assoc, ← zpow_natCast (2 : ℚ) (52 - k), ← zpow_add₀ (two_ne_zero : (2 : ℚ) ≠ 0)]
    rw [(by omega : ((52 - k : ℕ) : ℤ) + ((k : ℤ) - 52) = 0), zpow_zero, mul_one]
  simp only [roundDouble, if_neg hnot, he, hfloor2]
  have hrval : q * 2 ^ ((52 : ℤ) - k) - (((M : ℤ) - 1 : ℤ) : ℚ) = 1 - d := by
    rw [hMcast]
    push_cast
    ring
  rw [hrval]
  have hc1 : ¬ (1 - d < 1 / 2) := by
    push_neg
    linarith
  rw [if_neg hc1]
  by_cases hc2 : 1 / 2 < 1 - d
  · rw [if_pos hc2]
    exact hfinal
  · rw [if_neg hc2]
    have hdeq : d = 1 / 2 := le_antisymm hd_le (by linarith [not_lt.mp hc2])
    have hteq : t = 2 ^ (k + 1) := by
      have h2' : (t : ℚ) = 2 ^ (k + 1) := by
        have h3' : (t : ℚ) = 1 / 2 * 2 ^ (k + 2) := by
          rw [hddef] at hdeq
          field_simp at hdeq
          linarith
        rw [h3']
        ring
      exact_mod_cast h2'
    have hModd : ¬ (((M : ℤ) - 1) % 2 = 0) := by
      have hM53 : M = 2 ^ 53 := by
        rw [hMdef, hteq, ← pow_add]
        congr 1
        omega
      rw [hM53]
      decide
    rw [if_neg hModd]
    exact hfinal

/-- Python `int(·)` is the floor on nonnegative values. -/
lemma pyTrunc_eq_floor (q : ℚ) (h : 0 ≤ q) : pyTrunc q = ⌊q⌋ := by
  simp [pyTrunc, not_lt.mpr h]

/-- Truncating the rounded quotient `t / 3` gives exactly `t / 3` rounded
down, for every realistic `t`. -/
lemma trunc_roundDouble_div3 (t : ℕ) (h3 : 3 ≤ t) (ht : t ≤ 2 ^ 52) :
    pyTrunc (roundDouble ((t : ℚ) / 3)) = (t : ℤ) / 3 := by
  rcases Nat.lt_or_ge 0 (t % 3) with hmod | hmod
  · -- t not divisible by 3
    set m : ℕ := t / 3 with hm
    have hc : t % 3 = 1 ∨ t % 3 = 2 := by omega
    have hq1 : (1 : ℚ) ≤ (t : ℚ) / 3 := by
      rw [le_div_iff₀ (by norm_num)]
      have : (3 : ℚ) ≤ (t : ℚ) := by exact_mod_cast h3
      linarith
    have hq2 : (t : ℚ) / 3 < 2 ^ 62 := by
      rw [div_lt_iff₀ (by norm_num)]
      have : (t : ℚ) ≤ 2 ^ 52 := by exact_mod_cast ht
      nlinarith
    have herr := abs_roundDouble_sub ((t : ℚ) / 3) hq1 hq2
    have herr' : |roundDouble ((t : ℚ) / 3) - (t : ℚ) / 3| ≤ 1 / 6 := by
      refine le_trans herr ?_
      have htq : (t : ℚ) ≤ 2 ^ 52 := by exact_mod_cast ht
      rw [div_div, div_le_iff₀ (by norm_num)]
      have hval : (1 / 6 : ℚ) * (3 * 2 ^ 53) = 2 ^ 52 := by norm_num
      linarith
    have habs := abs_le.mp herr'
    have hmtn : t = 3 * m + t % 3 := by omega
    have hfloor : ⌊roundDouble ((t : ℚ) / 3)⌋ = (m : ℤ) := by
      rw [Int.floor_eq_iff]
      have hmt : (t : ℚ) = 3 * (m : ℚ) + ((t % 3 : ℕ) : ℚ) := by exact_mod_cast hmtn
      have hq3 : (t : ℚ) / 3 = (m : ℚ) + ((t % 3 : ℕ) : ℚ) / 3 := by
        rw [hmt]; ring
      push_cast
      rcases hc with hc | hc <;> rw [hc] at hq3 <;> push_cast at hq3 <;>
        exact ⟨by linarith [habs.1, hq3], by linarith [habs.2, hq3]⟩
    have hpos : (0 : ℚ) ≤ roundDouble ((t : ℚ) / 3) := by
      have h16 : (1 : ℚ) - 1 / 6 ≤ roundDouble ((t : ℚ) / 3) := by
        have := abs_le.mp herr'
        linarith [this.1, hq1]
      linarith
    rw [pyTrunc_eq_floor _ hpos, hfloor]
    omega
  · -- 3 divides t
    have hdvd : 3 ∣ t := by omega
    obtain ⟨m, rfl⟩ := hdvd
    have hmq : ((3 * m : ℕ) : ℚ) / 3 = (m : ℚ) := by push_cast; ring
    rw [hmq, roundDouble_int m (by omega) (by nlinarith [ht])]
    rw [pyTrunc_eq_floor _ (by positivity), Int.floor_natCast]
    omega

/-- The binary exponent of a rational in `(1/2, 1)` is `-1`. -/
lemma floorLog2Q_half (q : ℚ) (h1 : 1 / 2 < q) (h2 : q < 1) : floorLog2Q q = -1 := by
  have hql : ¬ (1 : ℚ) ≤ q := by linarith
  have hq0 : (0 : ℚ) < q := by linarith
  have hfm : ⌊q⁻¹⌋ = 1 := by
    rw [Int.floor_eq_iff, ← one_div]
    constructor
    · push_cast
      rw [le_div_iff₀ hq0]
      linarith
    · push_cast
      rw [div_lt_iff₀ hq0]
      linarith
  have hf1 : floorLog2N (1 : ℤ).toNat = 0 := by decide
  have hne : q ≠ ((2 : ℚ) ^ (0 : ℕ))⁻¹ := by
    intro hcon
    rw [hcon] at h2
    norm_num at h2
  simp only [floorLog2Q, if_neg hql, hfm, hf1]
  rw [if_neg hne]
  norm_num

/-- The binary exponent of a rational in `(1/4, 1/2)` is `-2`. -/
lemma floorLog2Q_quarter (q : ℚ) (h1 : 1 / 4 < q) (h2 : q < 1 / 2) : floorLog2Q q = -2 := by
  have hql : ¬ (1 : ℚ) ≤ q := by linarith
  have hq0 : (0 : ℚ) < q := by linarith
  have hfm : ⌊q⁻¹⌋ = 2 ∨ ⌊q⁻¹⌋ = 3 := by
    have hlow : (2 : ℤ) ≤ ⌊q⁻¹⌋ := by
      apply Int.le_floor.mpr
      rw [← one_div]
      push_cast
      rw [le_div_iff₀ hq0]
      linarith
    have hhigh : ⌊q⁻¹⌋ < 4 := by
      apply Int.floor_lt.mpr
      rw [← one_div]
      push_cast
      rw [div_lt_iff₀ hq0]
      linarith
    omega
  have hne : q ≠ ((2 : ℚ) ^ (1 : ℕ))⁻¹ := by
    intro hcon
    rw [hcon] at h2
    norm_num at h2
  rcases hfm with hfm | hfm
  · have hf2 : floorLog2N (2 : ℤ).toNat = 1 := by decide
    simp only [floorLog2Q, if_neg hql, hfm, hf2]
    rw [if_neg hne]
    norm_num
  · have hf3 : floorLog2N (3 : ℤ).toNat = 1 := by decide
    simp only [floorLog2Q, if_neg hql, hfm, hf3]
    rw [if_neg hne]
    norm_num

/-- `fl(1/3) * 3` rounds to exactly 1 (tie resolved to the even mantissa). -/
lemma roundDouble_almost_one : roundDouble ((2 ^ 54 - 1 : ℚ) / 2 ^ 54) = 1 := by
  have hq1 : (1 / 2 : ℚ) < (2 ^ 54 - 1 : ℚ) / 2 ^ 54 := by norm_num
  have hq2 : (2 ^ 54 - 1 : ℚ) / 2 ^ 54 < 1 := by norm_num
  have he := floorLog2Q_half _ hq1 hq2
  have hnot : ¬ (2 ^ 54 - 1 : ℚ) / 2 ^ 54 ≤ 0 := by norm_num
  simp only [roundDouble, if_neg hnot, he]
  have hsc : (2 ^ 54 - 1 : ℚ) / 2 ^ 54 * 2 ^ ((52 : ℤ) - (-1)) = 2 ^ 53 - 1 / 2 := by
    rw [(by norm_num : (52 : ℤ) - (-1) = ((53 : ℕ) : ℤ)), zpow_natCast]
    rw [div_mul_eq_mul_div, div_eq_iff (by norm_num)]
    norm_num
  rw [hsc]
  have hfl : ⌊(2 ^ 53 - 1 / 2 : ℚ)⌋ = 2 ^ 53 - 1 := by
    rw [Int.floor_eq_iff]
    push_cast
    norm_num
  rw [hfl]
  have hr : (2 ^ 53 - 1 / 2 : ℚ) - ((2 ^ 53 - 1 : ℤ) : ℚ) = 1 / 2 := by
    push_cast
    ring
  rw [hr]
  rw [if_neg (by norm_num), if_neg (by norm_num), if_neg (by decide)]
  have hcast : ((2 ^ 53 - 1 + 1 : ℤ) : ℚ) = 2 ^ 53 := by push_cast; ring
  rw [hcast, (by norm_num : (-1 : ℤ) - 52 = -((53 : ℕ) : ℤ)), zpow_neg, zpow_natCast]
  norm_num

/-- Rounding `1/3` gives the binary64 constant `fl(1/3)`. -/
lemma roundDouble_third : roundDouble ((1 : ℚ) / 3) = oneThirdD := by
  have he := floorLog2Q_quarter ((1 : ℚ) / 3) (by norm_num) (by norm_num)
  have hnot : ¬ (1 : ℚ) / 3 ≤ 0 := by norm_num
  simp only [roundDouble, if_neg hnot, he]
  have hsc : (1 : ℚ) / 3 * 2 ^ ((52 : ℤ) - (-2)) = 2 ^ 54 / 3 := by
    rw [(by norm_num : (52 : ℤ) - (-2) = ((54 : ℕ) : ℤ)), zpow_natCast]
    ring
  rw [hsc]
  have hfl : ⌊(2 ^ 54 / 3 : ℚ)⌋ = 6004799503160661 := by
    rw [Int.floor_eq_iff]
    constructor
    · rw [le_div_iff₀ (by norm_num)]
      norm_num
    · rw [div_lt_iff₀ (by norm_num)]
      norm_num
  rw [hfl]
  rw [if_pos]
  · rw [oneThirdD, (by norm_num : (-2 : ℤ) - 52 = -((54 : ℕ) : ℤ)), zpow_neg, zpow_natCast]
    push_cast
    ring
  · rw [div_sub' _ _ _ (by norm_num : (3 : ℚ) ≠ 0)]
    rw [div_lt_div_iff₀ (by norm_num) (by norm_num)]
    push_cast
    norm_num

/-- Rounding `2/3` gives twice the binary64 constant `fl(1/3)`. -/
lemma roundDouble_two_thirds : roundDouble ((2 : ℚ) / 3) = 2 * oneThirdD := by
  have he := floorLog2Q_half ((2 : ℚ) / 3) (by norm_num) (by norm_num)
  have hnot : ¬ (2 : ℚ) / 3 ≤ 0 := by norm_num
  simp only [roundDouble, if_neg hnot, he]
  have hsc : (2 : ℚ) / 3 * 2 ^ ((52 : ℤ) - (-1)) = 2 ^ 54 / 3 := by
    rw [(by norm_num : (52 : ℤ) - (-1) = ((53 : ℕ) : ℤ)), zpow_natCast]
    ring
  rw [hsc]
  have hfl : ⌊(2 ^ 54 / 3 : ℚ)⌋ = 6004799503160661 := by
    rw [Int.floor_eq_iff]
    constructor
    · rw [le_div_iff₀ (by norm_num)]
      norm_num
    · rw [div_lt_iff₀ (by norm_num)]
      norm_num
  rw [hfl]
  rw [if_pos]
  · rw [oneThirdD, (by norm_num : (-1 : ℤ) - 52 = -((53 : ℕ) : ℤ)), zpow_neg, zpow_natCast]
    push_cast
    field_simp
    ring
  · rw [div_sub' _ _ _ (by norm_num : (3 : ℚ) ≠ 0)]
    rw [div_lt_div_iff₀ (by norm_num) (by norm_num)]
    push_cast
    norm_num

/-- The float computation of `target_pixels` agrees with `⌊total / 3⌋` on
every image with at most `2 ^ 50` pixels (far beyond any real image). -/
lemma targetPixels_eq (t : ℕ) (ht : t ≤ 2 ^ 50) :
    targetPixels (3 * t) = (t : ℤ) / 3 := by
  rcases Nat.lt_or_ge t 3 with h3 | h3
  · interval_cases t
    · -- t = 0
      have h0 : roundDouble 0 = 0 := by simp [roundDouble]
      norm_num [targetPixels, h0, pyTrunc]
    · -- t = 1
      rw [mul_one]
      have hr3 : roundDouble ((3 : ℕ) : ℚ) = ((3 : ℕ) : ℚ) :=
        roundDouble_int 3 (by norm_num) (by norm_num)
      have hstep1 : oneThirdD * ((3 : ℕ) : ℚ) = (2 ^ 54 - 1 : ℚ) / 2 ^ 54 := by
        rw [oneThirdD]
        push_cast
        rw [div_mul_eq_mul_div, div_eq_div_iff (by norm_num) (by norm_num)]
        norm_num
      rw [targetPixels, hr3, hstep1, roundDouble_almost_one, roundDouble_third]
      rw [pyTrunc_eq_floor _ (by rw [oneThirdD]; positivity)]
      rw [Int.floor_eq_iff]
      constructor
      · norm_num [oneThirdD]
      · norm_num [oneThirdD]
    · -- t = 2
      rw [(by norm_num : 3 * 2 = 6)]
      have hr6 : roundDouble ((6 : ℕ) : ℚ) = ((6 : ℕ) : ℚ) :=
        roundDouble_int 6 (by norm_num) (by norm_num)
      have hstep1 : oneThirdD * ((6 : ℕ) : ℚ) = ((2 : ℕ) : ℚ) * (2 ^ 54 - 1) / 2 ^ 54 := by
        rw [oneThirdD]
        push_cast
        rw [div_mul_eq_mul_div, div_eq_div_iff (by norm_num) (by norm_num)]
        norm_num
      have hq23 : ((2 : ℕ) : ℚ) / 3 = (2 : ℚ) / 3 := by norm_num
      rw [targetPixels, hr6, hstep1, roundDouble_q1 2 (by norm_num) (by norm_num),
        hq23, roundDouble_two_thirds]
      rw [pyTrunc_eq_floor _ (by rw [oneThirdD]; positivity)]
      rw [Int.floor_eq_iff]
      constructor
      · norm_num [oneThirdD]
      · norm_num [oneThirdD]
  · -- t ≥ 3
    have h3t : 3 * t < 2 ^ 53 := by
      have h1 : 3 * t ≤ 3 * 2 ^ 50 := by omega
      have h2 : 3 * 2 ^ 50 < 2 ^ 53 := by norm_num
      omega
    have hr3t : roundDouble ((3 * t : ℕ) : ℚ) = ((3 * t : ℕ) : ℚ) :=
      roundDouble_int (3 * t) (by omega) h3t
    have hstep1 : oneThirdD * ((3 * t : ℕ) : ℚ) = (t : ℚ) * (2 ^ 54 - 1) / 2 ^ 54 := by
      rw [oneThirdD]
      push_cast
      rw [div_mul_eq_mul_div, div_eq_div_iff (by norm_num) (by norm_num)]
      ring
    have hrq1 := roundDouble_q1 t (by omega) (le_trans ht (by norm_num))
    rw [targetPixels, hr3t, hstep1, hrq1]
    exact trunc_roundDouble_div3 t h3 (le_trans ht (by norm_num))

/-- The key relation is total. -/
lemma keyRel_total (Hh Ww : ℕ) (img : Fin Hh → Fin Ww → ColorV) (palLab : Fin 3 → ColorV)
    (i : Fin 3) : ∀ p q, keyRel Hh Ww img palLab i p q ∨ keyRel Hh Ww img palLab i q p := by
  intro p q
  unfold keyRel
  rw [sqrtSumLE_iff, sqrtSumLE_iff]
  exact le_total _ _

/-- The key relation is transitive. -/
lemma keyRel_trans (Hh Ww : ℕ) (img : Fin Hh → Fin Ww → ColorV) (palLab : Fin 3 → ColorV)
    (i : Fin 3) : ∀ p q s, keyRel Hh Ww img palLab i p q → keyRel Hh Ww img palLab i q s →
      keyRel Hh Ww img palLab i p s := by
  intro p q s hpq hqs
  unfold keyRel at *
  rw [sqrtSumLE_iff] at *
  linarith

/-! ### Structure of one rebalancing pass -/

lemma positions_nodup (Hh Ww : ℕ) : (positions Hh Ww).Nodup :=
  (List.nodup_finRange Hh).product (List.nodup_finRange Ww)

lemma mem_positions {Hh Ww : ℕ} (p : Fin Hh × Fin Ww) : p ∈ positions Hh Ww := by
  rcases p with ⟨r, c⟩
  simp [positions, List.mem_product]

lemma countA_eq_countP {Hh Ww : ℕ} (a : Fin Hh → Fin Ww → Fin 3) (j : Fin 3) :
    countA Hh Ww a j = (positions Hh Ww).countP fun p => decide (a p.1 p.2 = j) :=
  (List.countP_eq_length_filter _ _).symm

/-- Counting a predicate over all pixels splits into the pixels of a
duplicate-free list `sel` and the rest. -/
lemma countP_split {Hh Ww : ℕ} (sel : List (Fin Hh × Fin Ww)) (hnd : sel.Nodup)
    (P : (Fin Hh × Fin Ww) → Bool) :
    (positions Hh Ww).countP P =
      sel.countP P +
        ((positions Hh Ww).filter fun p => !(decide (p ∈ sel))).countP P := by
  have h1 := List.filter_append_perm (fun p => decide (p ∈ sel)) (positions Hh Ww)
  have h2 := h1.countP_eq P
  rw [← h2, List.countP_append]
  congr 1
  have h3 : List.Perm ((positions Hh Ww).filter fun p => decide (p ∈ sel)) sel := by
    apply List.perm_of_nodup_nodup_toFinset_eq ((positions_nodup Hh Ww).filter _) hnd
    ext x
    simp [List.mem_filter, mem_positions]
  exact h3.countP_eq P

/-- Effect on the per-index pixel counts of reassigning the distinct pixels
of `sel` (all previously assigned to `i`) to the value `v`. -/
lemma countA_update {Hh Ww : ℕ} (a : Fin Hh → Fin Ww → Fin 3) (i v : Fin 3)
    (sel : List (Fin Hh × Fin Ww)) (hnd : sel.Nodup)
    (hmem : ∀ p ∈ sel, a p.1 p.2 = i) (j : Fin 3) :
    countA Hh Ww (fun r c => if (r, c) ∈ sel then v else a r c) j +
        (if i = j then sel.length else 0)
      = countA Hh Ww a j + (if v = j then sel.length else 0) := by
  rw [countA_eq_countP, countA_eq_countP, countP_split sel hnd, countP_split sel hnd]
  have hseln : sel.countP
      (fun p => decide ((if (p.1, p.2) ∈ sel then v else a p.1 p.2) = j)) =
      if v = j then sel.length else 0 := by
    rw [List.countP_congr (q := fun _ => decide (v = j))]
    · by_cases hvj : v = j <;> simp [hvj]
    · intro x hx
      simp only [decide_eq_true_eq]
      rw [if_pos (by simpa using hx)]
  have hselo : sel.countP (fun p => decide (a p.1 p.2 = j)) =
      if i = j then sel.length else 0 := by
    rw [List.countP_congr (q := fun _ => decide (i = j))]
    · by_cases hij : i = j <;> simp [hij]
    · intro x hx
      simp only [decide_eq_true_eq]
      rw [hmem x hx]
  have hrest : ((positions Hh Ww).filter fun p => !(decide (p ∈ sel))).countP
        (fun p => decide ((if (p.1, p.2) ∈ sel then v else a p.1 p.2) = j))
      = ((positions Hh Ww).filter fun p => !(decide (p ∈ sel))).countP
        (fun p => decide (a p.1 p.2 = j)) := by
    apply List.countP_congr
    intro x hx
    have hxnot : ¬ x ∈ sel := by
      have := List.of_mem_filter hx
      simpa using this
    simp only [decide_eq_true_eq]
    rw [if_neg (by simpa using hxnot)]
  rw [hseln, hselo, hrest]
  ring

/-- A pass over an index whose count does not exceed the target leaves the
assignment unchanged. -/
lemma rebalanceStep_noop {Hh Ww : ℕ} (img : Fin Hh → Fin Ww → ColorV)
    (palLab : Fin 3 → ColorV) (T : ℤ) (i : Fin 3) (a : Fin Hh → Fin Ww → Fin 3)
    (h : (countA Hh Ww a i : ℤ) ≤ T) :
    rebalanceStep Hh Ww img palLab T i a = a := by
  have h' : (((positions Hh Ww).filter fun p => a p.1 p.2 = i).length : ℤ) ≤ T := h
  simp only [rebalanceStep]
  rw [if_neg (by omega)]

/-- A pass over an index with positive excess: there is a duplicate-free
selection of exactly `excess` pixels of that index, all reassigned to
`i + 1`, all other pixels untouched, and every selected pixel has a combined
distance to the two alternative colors no larger than that of any unselected
pixel of index `i`. -/
lemma rebalanceStep_spec {Hh Ww : ℕ} (img : Fin Hh → Fin Ww → ColorV)
    (palLab : Fin 3 → ColorV) (T : ℤ) (hT : 0 ≤ T) (i : Fin 3)
    (a : Fin Hh → Fin Ww → Fin 3) (h : T < (countA Hh Ww a i : ℤ)) :
    ∃ sel : List (Fin Hh × Fin Ww),
      sel.Nodup ∧
      sel.length = ((countA Hh Ww a i : ℤ) - T).toNat ∧
      (∀ p ∈ sel, a p.1 p.2 = i) ∧
      rebalanceStep Hh Ww img palLab T i a =
        (fun r c => if (r, c) ∈ sel then i + 1 else a r c) ∧
      (∀ p ∈ sel, ∀ q : Fin Hh × Fin Ww, a q.1 q.2 = i → q ∉ sel →
        Real.sqrt (distSq (img p.1 p.2) (palLab (i + 1))) +
            Real.sqrt (distSq (img p.1 p.2) (palLab (i + 2))) ≤
          Real.sqrt (distSq (img q.1 q.2) (palLab (i + 1))) +
            Real.sqrt (distSq (img q.1 q.2) (palLab (i + 2)))) := by
  classical
  set S := (positions Hh Ww).filter fun p => a p.1 p.2 = i with hSdef
  have hcount : countA Hh Ww a i = S.length := rfl
  set e : ℕ := ((S.length : ℤ) - T).toNat with hedef
  set sorted := S.insertionSort (keyRel Hh Ww img palLab i) with hsorteddef
  have hperm : List.Perm sorted S := List.perm_insertionSort _ _
  have hSnodup : S.Nodup := (positions_nodup Hh Ww).filter _
  have hsortednodup : sorted.Nodup := hperm.nodup_iff.mpr hSnodup
  have hlen : sorted.length = S.length := hperm.length_eq
  have heS : e ≤ sorted.length := by
    rw [hlen]
    omega
  haveI : IsTotal (Fin Hh × Fin Ww) (keyRel Hh Ww img palLab i) :=
    ⟨keyRel_total Hh Ww img palLab i⟩
  haveI : IsTrans (Fin Hh × Fin Ww) (keyRel Hh Ww img palLab i) :=
    ⟨keyRel_trans Hh Ww img palLab i⟩
  have hsorted : sorted.Sorted (keyRel Hh Ww img palLab i) :=
    List.sorted_insertionSort _ _
  have hmemS : ∀ p ∈ S, a p.1 p.2 = i := by
    intro p hp
    have := List.of_mem_filter hp
    exact of_decide_eq_true this
  refine ⟨sorted.take e, ?_, ?_, ?_, ?_, ?_⟩
  · exact (List.take_sublist _ _).nodup hsortednodup
  · rw [List.length_take, hcount]
    omega
  · intro p hp
    exact hmemS p (hperm.mem_iff.mp (List.mem_of_mem_take hp))
  · simp only [rebalanceStep]
    rw [← hSdef]
    have h' : T < (S.length : ℤ) := by rw [← hcount]; exact h
    rw [if_pos (by omega)]
  · intro p hp q hq hqnot
    have hqS : q ∈ S := by
      rw [hSdef]
      exact List.mem_filter.mpr ⟨mem_positions q, decide_eq_true hq⟩
    have hqsorted : q ∈ sorted := hperm.mem_iff.mpr hqS
    have hqdrop : q ∈ sorted.drop e := by
      have hqsplit : q ∈ sorted.take e ++ sorted.drop e := by
        rw [List.take_append_drop]
        exact hqsorted
      rcases List.mem_append.mp hqsplit with hqa | hqb
      · exact absurd hqa hqnot
      · exact hqb
    have hpair : ∀ x ∈ sorted.take e, ∀ y ∈ sorted.drop e,
        keyRel Hh Ww img palLab i x y := by
      have hP : List.Pairwise (keyRel Hh Ww img palLab i)
          (sorted.take e ++ sorted.drop e) := by
        rw [List.take_append_drop]
        exact hsorted
      exact (List.pairwise_append.mp hP).2.2
    have hk := hpair p hp q hqdrop
    rw [keyRel, sqrtSumLE_iff] at hk
    exact hk

lemma fin3_succ_ne (i : Fin 3) : i + 1 ≠ i := by
  fin_cases i <;> decide

/-- A pass with positive excess drains the count of its index to exactly the
target. -/
lemma rebalanceStep_count_self {Hh Ww : ℕ} (img : Fin Hh → Fin Ww → ColorV)
    (palLab : Fin 3 → ColorV) (T : ℤ) (hT : 0 ≤ T) (i : Fin 3)
    (a : Fin Hh → Fin Ww → Fin 3) (h : T < (countA Hh Ww a i : ℤ)) :
    (countA Hh Ww (rebalanceStep Hh Ww img palLab T i a) i : ℤ) = T := by
  obtain ⟨sel, hnd, hlen, hmem, hstep, _⟩ := rebalanceStep_spec img palLab T hT i a h
  rw [hstep]
  have hupd := countA_update a i (i + 1) sel hnd hmem i
  rw [if_pos rfl, if_neg (fin3_succ_ne i)] at hupd
  omega

/-- A pass with positive excess adds exactly the excess to index `i + 1`. -/
lemma rebalanceStep_count_succ {Hh Ww : ℕ} (img : Fin Hh → Fin Ww → ColorV)
    (palLab : Fin 3 → ColorV) (T : ℤ) (hT : 0 ≤ T) (i : Fin 3)
    (a : Fin Hh → Fin Ww → Fin 3) (h : T < (countA Hh Ww a i : ℤ)) :
    (countA Hh Ww (rebalanceStep Hh Ww img palLab T i a) (i + 1) : ℤ) =
      (countA Hh Ww a (i + 1) : ℤ) + ((countA Hh Ww a i : ℤ) - T) := by
  obtain ⟨sel, hnd, hlen, hmem, hstep, _⟩ := rebalanceStep_spec img palLab T hT i a h
  rw [hstep]
  have hupd := countA_update a i (i + 1) sel hnd hmem (i + 1)
  rw [if_pos rfl, if_neg (Ne.symm (fin3_succ_ne i))] at hupd
  omega

/-- A pass never changes the counts of the third index. -/
lemma rebalanceStep_count_other {Hh Ww : ℕ} (img : Fin Hh → Fin Ww → ColorV)
    (palLab : Fin 3 → ColorV) (T : ℤ) (hT : 0 ≤ T) (i : Fin 3)
    (a : Fin Hh → Fin Ww → Fin 3) (j : Fin 3) (hj : j ≠ i) (hj2 : j ≠ i + 1) :
    countA Hh Ww (rebalanceStep Hh Ww img palLab T i a) j = countA Hh Ww a j := by
  rcases le_or_lt ((countA Hh Ww a i : ℤ)) T with hc | hc
  · rw [rebalanceStep_noop img palLab T i a hc]
  · obtain ⟨sel, hnd, hlen, hmem, hstep, _⟩ := rebalanceStep_spec img palLab T hT i a hc
    rw [hstep]
    have hupd := countA_update a i (i + 1) sel hnd hmem j
    rw [if_neg (Ne.symm hj), if_neg (Ne.symm hj2)] at hupd
    omega

/-- After a pass over index `i`, the count of `i` is at most the target. -/
lemma rebalanceStep_count_self_le {Hh Ww : ℕ} (img : Fin Hh → Fin Ww → ColorV)
    (palLab : Fin 3 → ColorV) (T : ℤ) (hT : 0 ≤ T) (i : Fin 3)
    (a : Fin Hh → Fin Ww → Fin 3) :
    (countA Hh Ww (rebalanceStep Hh Ww img palLab T i a) i : ℤ) ≤ T := by
  rcases le_or_lt ((countA Hh Ww a i : ℤ)) T with hc | hc
  · rw [rebalanceStep_noop img palLab T i a hc]
    exact hc
  · rw [rebalanceStep_count_self img palLab T hT i a hc]

/-- A pass touches only pixels currently assigned to its index. -/
lemma rebalanceStep_preserves {Hh Ww : ℕ} (img : Fin Hh → Fin Ww → ColorV)
    (palLab : Fin 3 → ColorV) (T : ℤ) (hT : 0 ≤ T) (i : Fin 3)
    (a : Fin Hh → Fin Ww → Fin 3) (q : Fin Hh × Fin Ww) (hq : a q.1 q.2 ≠ i) :
    rebalanceStep Hh Ww img palLab T i a q.1 q.2 = a q.1 q.2 := by
  rcases le_or_lt ((countA Hh Ww a i : ℤ)) T with hc | hc
  · rw [rebalanceStep_noop img palLab T i a hc]
  · obtain ⟨sel, hnd, hlen, hmem, hstep, _⟩ := rebalanceStep_spec img palLab T hT i a hc
    rw [hstep]
    have hqnot : ¬ (q.1, q.2) ∈ sel := by
      intro hcon
      exact hq (by simpa using hmem _ hcon)
    simp only [if_neg hqnot]

/-- The painting loop of lines 37-39 is a palette lookup. -/
lemma paintImage_eq {Hh Ww : ℕ} (palRgb : Fin 3 → ColorV) (a : Fin Hh → Fin Ww → Fin 3)
    (r : Fin Hh) (c : Fin Ww) :
    paintImage Hh Ww palRgb a r c = palRgb (a r c) := by
  have hfr : List.finRange 3 = [0, 1, 2] := by decide
  show (List.finRange 3).foldl (fun acc i => if a r c = i then palRgb i else acc) (0, 0, 0) =
    palRgb (a r c)
  rw [hfr]
  have hj : ∀ j : Fin 3,
      List.foldl (fun acc i => if j = i then palRgb i else acc) (0, 0, 0) [0, 1, 2] =
        palRgb j := by
    intro j
    fin_cases j <;> simp
  exact hj (a r c)

/-! ### Instances for counterexamples and witnesses -/

/-- A 1 by 1 LAB image holding a very dark gray (`L = 10`, neutral a, b);
such a value is produced by `cv2` for a dark gray RGB pixel. -/
def imgGray10 : Fin 1 → Fin 1 → ColorV := fun _ _ => (10, 128, 128)

/-- LAB palette values of three grays as produced by `cv2`: white
(`L = 255`), a gray with `L = 30`, and a light gray with `L = 200`. -/
def palC6 : Fin 3 → ColorV := ![(255, 128, 128), (30, 128, 128), (200, 128, 128)]

/-- A decoder that fails on every path except `b.png`. -/
def decodeW : String → Option RawImage :=
  fun p => if p = "b.png" then some ⟨1, 1, fun _ _ => (0, 0, 0)⟩ else none

/-- Case analysis of `argmin3`: the chosen index attains the minimum and
every earlier index has a strictly larger value. -/
lemma argmin3_cases (d0 d1 d2 : ℕ) :
    (argmin3 d0 d1 d2 = 0 ∧ d0 ≤ d1 ∧ d0 ≤ d2) ∨
    (argmin3 d0 d1 d2 = 1 ∧ d1 < d0 ∧ d1 ≤ d2) ∨
    (argmin3 d0 d1 d2 = 2 ∧ d2 < d0 ∧ d2 < d1) := by
  unfold argmin3
  split_ifs with h1 h2
  · exact Or.inl ⟨rfl, h1⟩
  · exact Or.inr (Or.inl ⟨rfl, by omega, h2⟩)
  · exact Or.inr (Or.inr ⟨rfl, by omega, by omega⟩)

/-! ### Claims -/

/-- C10: `hex_to_rgb` strips the leading character *sets* `{0, x}` and then
`{#}` rather than a single marker, so the 8-character string `00FF0011`,
which carries no `0x` or `#` marker, is accepted and parsed as the color
`(255, 0, 17)` instead of raising `ValueError`. -/
theorem C10_lstrip_overstrips :
    hex_to_rgb "00FF0011" = some (255, 0, 17) ∧
      "00FF0011".length = 8 ∧
      "00FF0011".data.take 2 ≠ ['0', 'x'] ∧
      "00FF0011".data.take 1 ≠ ['#'] := by
  decide

/-- C2: the spec-valid palette string `0x001122` (a `0x` marker followed by
six hex digits, the format shown in the CLI help) is rejected by
`hex_to_rgb` with a `ValueError` (`none`), because `lstrip("0x")` also eats
the leading zeros of the color value; the same color with a `#` marker
parses fine, which shows the intent. -/
theorem C2_hex_rejects_valid_input :
    hex_to_rgb "0x001122" = none ∧
      hex_to_rgb "001122" = none ∧
      hex_to_rgb "#001122" = some (0, 17, 34) := by
  decide

/-- C4: the float computation `int(target_fraction * lab_image.size / 3)`
equals `⌊H * W / 3⌋` for every image of at most `2 ^ 50` pixels (every
physically possible image). -/
theorem C4_target_is_floor_third (Hh Ww : ℕ) (hsize : Hh * Ww ≤ 2 ^ 50) :
    targetPixels (Hh * Ww * 3) = (Hh * Ww : ℤ) / 3 := by
  rw [(by ring : Hh * Ww * 3 = 3 * (Hh * Ww))]
  exact targetPixels_eq (Hh * Ww) hsize

/-- Witness for C4 on a 3 by 3 image. -/
theorem C4_target_is_floor_third_witness :
    targetPixels (3 * 3 * 3) = (3 * 3 : ℤ) / 3 :=
  C4_target_is_floor_third 3 3 (by norm_num)

/-- C7: every pixel of the produced output image is the palette color of
the final assignment of that pixel, hence one of the three palette colors
exactly; no interpolation occurs. -/
theorem C7_output_is_palette_lookup (Hh Ww : ℕ) (labImage : Fin Hh → Fin Ww → ColorV)
    (palRgb : Fin 3 → ColorV) (rgbToLab : ColorV → ColorV) (r : Fin Hh) (c : Fin Ww) :
    normalize_color_distribution Hh Ww labImage palRgb rgbToLab r c =
      palRgb (rebalanced Hh Ww labImage (fun i => rgbToLab (palRgb i))
        (targetPixels (Hh * Ww * 3))
        (assignRaw Hh Ww labImage (fun i => rgbToLab (palRgb i))) r c) ∧
    ∃ i : Fin 3, normalize_color_distribution Hh Ww labImage palRgb rgbToLab r c = palRgb i := by
  constructor
  · exact paintImage_eq palRgb _ r c
  · exact ⟨_, paintImage_eq palRgb _ r c⟩

/-- C9: after the full rebalancing loop the number of pixels assigned to
palette index 2 never exceeds the target `⌊H * W / 3⌋`: index 2 is drained
last and no later pass reassigns pixels to it. -/
theorem C9_index2_within_target (Hh Ww : ℕ) (img : Fin Hh → Fin Ww → ColorV)
    (palLab : Fin 3 → ColorV) (hsize : Hh * Ww ≤ 2 ^ 50) :
    (countA Hh Ww (rebalanced Hh Ww img palLab (targetPixels (Hh * Ww * 3))
        (assignRaw Hh Ww img palLab)) 2 : ℤ) ≤ (Hh * Ww : ℤ) / 3 := by
  have hTeq : targetPixels (Hh * Ww * 3) = (Hh * Ww : ℤ) / 3 := by
    rw [(by ring : Hh * Ww * 3 = 3 * (Hh * Ww))]
    exact targetPixels_eq (Hh * Ww) hsize
  have hT0 : 0 ≤ targetPixels (Hh * Ww * 3) := by
    rw [hTeq]
    positivity
  rw [← hTeq]
  exact rebalanceStep_count_self_le img palLab (targetPixels (Hh * Ww * 3)) hT0 2
    (rebalanceStep Hh Ww img palLab (targetPixels (Hh * Ww * 3)) 1
      (rebalanceStep Hh Ww img palLab (targetPixels (Hh * Ww * 3)) 0
        (assignRaw Hh Ww img palLab)))

/-- Witness for C9 on the all-black 3 by 3 image with the black, gray,
white palette. -/
theorem C9_index2_within_target_witness :
    (countA 3 3 (rebalanced 3 3 imgBlack3 palBWLab (targetPixels (3 * 3 * 3))
        (assignRaw 3 3 imgBlack3 palBWLab)) 2 : ℤ) ≤ (3 * 3 : ℤ) / 3 :=
  C9_index2_within_target 3 3 imgBlack3 palBWLab (by norm_num)

/-- C1 counterexample: on the all-black 2 by 2 image with the black, gray,
white palette, the raw count of index 0 is 4 > ⌊4/3⌋ = 1, yet the final
pass pushes the excess of index 2 back to index 0, leaving index 0 with 2
pixels, above ⌊4/3⌋. -/
theorem C1_counterexample :
    (2 * 2 : ℤ) / 3 < (countA 2 2 (assignRaw 2 2 imgBlack2 palBWLab) 0 : ℤ) ∧
    ¬ ((countA 2 2 (rebalanced 2 2 imgBlack2 palBWLab (targetPixels (2 * 2 * 3))
        (assignRaw 2 2 imgBlack2 palBWLab)) 0 : ℤ) ≤ (2 * 2 : ℤ) / 3) := by
  have ht : targetPixels (2 * 2 * 3) = 1 := by
    rw [(by norm_num : (2 * 2 * 3 : ℕ) = 3 * 4), targetPixels_eq 4 (by norm_num)]
    decide
  rw [ht]
  constructor
  · decide
  · decide

/-- C1 (amended): after index 0 is drained its count equals
`⌊H * W / 3⌋`; the final count of index 0 equals that target plus whatever
excess index 2 sheds in the last pass, so it can exceed the target. -/
theorem C1_final_count_index0 (Hh Ww : ℕ) (img : Fin Hh → Fin Ww → ColorV)
    (palLab : Fin 3 → ColorV) (hsize : Hh * Ww ≤ 2 ^ 50)
    (h : (Hh * Ww : ℤ) / 3 < (countA Hh Ww (assignRaw Hh Ww img palLab) 0 : ℤ)) :
    (countA Hh Ww (rebalanced Hh Ww img palLab (targetPixels (Hh * Ww * 3))
        (assignRaw Hh Ww img palLab)) 0 : ℤ)
      = (Hh * Ww : ℤ) / 3 +
        max 0 ((countA Hh Ww (rebalanceStep Hh Ww img palLab (targetPixels (Hh * Ww * 3)) 1
            (rebalanceStep Hh Ww img palLab (targetPixels (Hh * Ww * 3)) 0
              (assignRaw Hh Ww img palLab))) 2 : ℤ) - (Hh * Ww : ℤ) / 3) := by
  have hTeq : targetPixels (Hh * Ww * 3) = (Hh * Ww : ℤ) / 3 := by
    rw [(by ring : Hh * Ww * 3 = 3 * (Hh * Ww))]
    exact targetPixels_eq (Hh * Ww) hsize
  have hT0 : 0 ≤ targetPixels (Hh * Ww * 3) := by
    rw [hTeq]
    positivity
  rw [← hTeq] at h ⊢
  have h0 := rebalanceStep_count_self img palLab (targetPixels (Hh * Ww * 3)) hT0 0
    (assignRaw Hh Ww img palLab) h
  have h1 := rebalanceStep_count_other img palLab (targetPixels (Hh * Ww * 3)) hT0 1
    (rebalanceStep Hh Ww img palLab (targetPixels (Hh * Ww * 3)) 0
      (assignRaw Hh Ww img palLab)) 0 (by decide) (by decide)
  rcases le_or_lt ((countA Hh Ww (rebalanceStep Hh Ww img palLab (targetPixels (Hh * Ww * 3)) 1
      (rebalanceStep Hh Ww img palLab (targetPixels (Hh * Ww * 3)) 0
        (assignRaw Hh Ww img palLab))) 2 : ℤ)) (targetPixels (Hh * Ww * 3)) with hc | hc
  · rw [max_eq_left (by omega)]
    simp only [rebalanced]
    rw [rebalanceStep_noop img palLab (targetPixels (Hh * Ww * 3)) 2 _ hc]
    omega
  · have h2 := rebalanceStep_count_succ img palLab (targetPixels (Hh * Ww * 3)) hT0 2
      (rebalanceStep Hh Ww img palLab (targetPixels (Hh * Ww * 3)) 1
        (rebalanceStep Hh Ww img palLab (targetPixels (Hh * Ww * 3)) 0
          (assignRaw Hh Ww img palLab))) hc
    rw [(by decide : (2 : Fin 3) + 1 = 0)] at h2
    rw [max_eq_right (by omega)]
    simp only [rebalanced]
    omega

/-- Witness for the amended C1 on the all-black 2 by 2 image. -/
theorem C1_final_count_index0_witness :
    (countA 2 2 (rebalanced 2 2 imgBlack2 palBWLab (targetPixels (2 * 2 * 3))
        (assignRaw 2 2 imgBlack2 palBWLab)) 0 : ℤ)
      = (2 * 2 : ℤ) / 3 +
        max 0 ((countA 2 2 (rebalanceStep 2 2 imgBlack2 palBWLab (targetPixels (2 * 2 * 3)) 1
            (rebalanceStep 2 2 imgBlack2 palBWLab (targetPixels (2 * 2 * 3)) 0
              (assignRaw 2 2 imgBlack2 palBWLab))) 2 : ℤ) - (2 * 2 : ℤ) / 3) :=
  C1_final_count_index0 2 2 imgBlack2 palBWLab (by norm_num) (by decide)

/-- C3: the rebalancing loop is the pass over index 0, then 1, then 2; a
pass with no excess changes nothing; a pass never touches pixels of other
indices; and a pass with positive excess reassigns exactly `excess` pixels
of its index, each to `(i+1) mod 3` unconditionally, chosen so that every
reassigned pixel has a combined distance to the two alternative palette
colors no larger than that of any retained pixel of index `i`. -/
theorem C3_rebalancer_policy (Hh Ww : ℕ) (img : Fin Hh → Fin Ww → ColorV)
    (palLab : Fin 3 → ColorV) (T : ℤ) (hT : 0 ≤ T) (i : Fin 3)
    (a : Fin Hh → Fin Ww → Fin 3) :
    (rebalanced Hh Ww img palLab T a =
      rebalanceStep Hh Ww img palLab T 2
        (rebalanceStep Hh Ww img palLab T 1 (rebalanceStep Hh Ww img palLab T 0 a))) ∧
    ((countA Hh Ww a i : ℤ) ≤ T → rebalanceStep Hh Ww img palLab T i a = a) ∧
    (∀ q : Fin Hh × Fin Ww, a q.1 q.2 ≠ i →
      rebalanceStep Hh Ww img palLab T i a q.1 q.2 = a q.1 q.2) ∧
    (T < (countA Hh Ww a i : ℤ) →
      ∃ sel : List (Fin Hh × Fin Ww),
        sel.length = ((countA Hh Ww a i : ℤ) - T).toNat ∧
        (∀ p ∈ sel, a p.1 p.2 = i) ∧
        (∀ p ∈ sel, rebalanceStep Hh Ww img palLab T i a p.1 p.2 = i + 1) ∧
        (∀ q : Fin Hh × Fin Ww, q ∉ sel →
          rebalanceStep Hh Ww img palLab T i a q.1 q.2 = a q.1 q.2) ∧
        (∀ p ∈ sel, ∀ q : Fin Hh × Fin Ww, a q.1 q.2 = i → q ∉ sel →
          Real.sqrt (distSq (img p.1 p.2) (palLab (i + 1))) +
              Real.sqrt (distSq (img p.1 p.2) (palLab (i + 2))) ≤
            Real.sqrt (distSq (img q.1 q.2) (palLab (i + 1))) +
              Real.sqrt (distSq (img q.1 q.2) (palLab (i + 2))))) := by
  refine ⟨rfl, fun h => rebalanceStep_noop img palLab T i a h,
    fun q hq => rebalanceStep_preserves img palLab T hT i a q hq, fun h => ?_⟩
  obtain ⟨sel, hnd, hlen, hmem, hstep, hmin⟩ := rebalanceStep_spec img palLab T hT i a h
  refine ⟨sel, hlen, hmem, ?_, ?_, hmin⟩
  · intro p hp
    rw [hstep]
    simp only [if_pos (show (p.1, p.2) ∈ sel by simpa using hp)]
  · intro q hq
    rw [hstep]
    simp only [if_neg (show ¬ (q.1, q.2) ∈ sel by simpa using hq)]

/-- Witness for C3: the pass over index 0 of the all-black 2 by 2 image
with target 1. -/
theorem C3_rebalancer_policy_witness :
    (rebalanced 2 2 imgBlack2 palBWLab 1 (assignRaw 2 2 imgBlack2 palBWLab) =
      rebalanceStep 2 2 imgBlack2 palBWLab 1 2
        (rebalanceStep 2 2 imgBlack2 palBWLab 1 1
          (rebalanceStep 2 2 imgBlack2 palBWLab 1 0 (assignRaw 2 2 imgBlack2 palBWLab)))) ∧
    ((countA 2 2 (assignRaw 2 2 imgBlack2 palBWLab) 0 : ℤ) ≤ 1 →
      rebalanceStep 2 2 imgBlack2 palBWLab 1 0 (assignRaw 2 2 imgBlack2 palBWLab) =
        assignRaw 2 2 imgBlack2 palBWLab) ∧
    (∀ q : Fin 2 × Fin 2, assignRaw 2 2 imgBlack2 palBWLab q.1 q.2 ≠ 0 →
      rebalanceStep 2 2 imgBlack2 palBWLab 1 0 (assignRaw 2 2 imgBlack2 palBWLab) q.1 q.2 =
        assignRaw 2 2 imgBlack2 palBWLab q.1 q.2) ∧
    ((1 : ℤ) < (countA 2 2 (assignRaw 2 2 imgBlack2 palBWLab) 0 : ℤ) →
      ∃ sel : List (Fin 2 × Fin 2),
        sel.length = ((countA 2 2 (assignRaw 2 2 imgBlack2 palBWLab) 0 : ℤ) - 1).toNat ∧
        (∀ p ∈ sel, assignRaw 2 2 imgBlack2 palBWLab p.1 p.2 = 0) ∧
        (∀ p ∈ sel,
          rebalanceStep 2 2 imgBlack2 palBWLab 1 0 (assignRaw 2 2 imgBlack2 palBWLab)
            p.1 p.2 = 0 + 1) ∧
        (∀ q : Fin 2 × Fin 2, q ∉ sel →
          rebalanceStep 2 2 imgBlack2 palBWLab 1 0 (assignRaw 2 2 imgBlack2 palBWLab)
            q.1 q.2 = assignRaw 2 2 imgBlack2 palBWLab q.1 q.2) ∧
        (∀ p ∈ sel, ∀ q : Fin 2 × Fin 2,
          assignRaw 2 2 imgBlack2 palBWLab q.1 q.2 = 0 → q ∉ sel →
          Real.sqrt (distSq (imgBlack2 p.1 p.2) (palBWLab (0 + 1))) +
              Real.sqrt (distSq (imgBlack2 p.1 p.2) (palBWLab (0 + 2))) ≤
            Real.sqrt (distSq (imgBlack2 q.1 q.2) (palBWLab (0 + 1))) +
              Real.sqrt (distSq (imgBlack2 q.1 q.2) (palBWLab (0 + 2))))) :=
  C3_rebalancer_policy 2 2 imgBlack2 palBWLab 1 (by norm_num) 0
    (assignRaw 2 2 imgBlack2 palBWLab)

/-- C5: on the all-black 3 by 3 image with the palette black, gray, white,
every pixel is first assigned to black (index 0), the pass over index 0
moves exactly 6 pixels to index 1, and exactly 3 pixels remain black in the
final assignment map.  The conversion to LAB is abstract; only its values
on the three palette colors (the values `cv2` produces) are assumed. -/
theorem C5_black_image_scenario (f : ColorV → ColorV)
    (hb : f (0, 0, 0) = (0, 128, 128)) (hg : f (128, 128, 128) = (137, 128, 128))
    (hw : f (255, 255, 255) = (255, 128, 128)) :
    countA 3 3 (assignRaw 3 3 imgBlack3 (fun i => f (palBW i))) 0 = 9 ∧
    countA 3 3 (rebalanceStep 3 3 imgBlack3 (fun i => f (palBW i))
        (targetPixels (3 * 3 * 3)) 0
        (assignRaw 3 3 imgBlack3 (fun i => f (palBW i)))) 1 = 6 ∧
    countA 3 3 (rebalanced 3 3 imgBlack3 (fun i => f (palBW i)) (targetPixels (3 * 3 * 3))
        (assignRaw 3 3 imgBlack3 (fun i => f (palBW i)))) 0 = 3 := by
  have hf : (fun i => f (palBW i)) = palBWLab := by
    funext i
    fin_cases i
    · exact hb
    · exact hg
    · exact hw
  have ht : targetPixels (3 * 3 * 3) = 3 := by
    rw [(by norm_num : (3 * 3 * 3 : ℕ) = 3 * 9), targetPixels_eq 9 (by norm_num)]
    decide
  rw [hf, ht]
  refine ⟨by decide, by decide, by decide⟩

/-- Witness for C5 with a concrete conversion function. -/
theorem C5_black_image_scenario_witness :
    countA 3 3 (assignRaw 3 3 imgBlack3 (fun i => cvtBW (palBW i))) 0 = 9 ∧
    countA 3 3 (rebalanceStep 3 3 imgBlack3 (fun i => cvtBW (palBW i))
        (targetPixels (3 * 3 * 3)) 0
        (assignRaw 3 3 imgBlack3 (fun i => cvtBW (palBW i)))) 1 = 6 ∧
    countA 3 3 (rebalanced 3 3 imgBlack3 (fun i => cvtBW (palBW i)) (targetPixels (3 * 3 * 3))
        (assignRaw 3 3 imgBlack3 (fun i => cvtBW (palBW i)))) 0 = 3 :=
  C5_black_image_scenario cvtBW (by decide) (by decide) (by decide)

/-- C6 counterexample: a dark gray pixel (`L = 10`) with a palette of white
(`L = 255`), gray (`L = 30`), light gray (`L = 200`) in LAB.  The `uint8`
subtraction wraps, making white appear at distance 1, so the pixel is
assigned index 0 (white) although index 1 is strictly nearest under the
true LAB Euclidean distance of the spec. -/
theorem C6_counterexample :
    assignRaw 1 1 imgGray10 palC6 0 0 = 0 ∧
    Real.sqrt ((trueDistSq (imgGray10 0 0) (palC6 1) : ℝ)) <
      Real.sqrt ((trueDistSq (imgGray10 0 0) (palC6 0) : ℝ)) := by
  constructor
  · decide
  · have e1 : trueDistSq (imgGray10 0 0) (palC6 1) = 400 := by decide
    have e2 : trueDistSq (imgGray10 0 0) (palC6 0) = 60025 := by decide
    rw [e1, e2, (by norm_num : ((400 : ℤ) : ℝ) = 400),
      (by norm_num : ((60025 : ℤ) : ℝ) = 60025)]
    exact Real.sqrt_lt_sqrt (by norm_num) (by norm_num)

/-- C6 (amended): the initial assignment is the stable argmin (ties to the
lowest index) of the distances the code actually computes, i.e. the
Euclidean norms of the channel differences reduced modulo 256 by the
`uint8` subtraction — not of the true signed LAB differences. -/
theorem C6_assignment_stable_argmin (Hh Ww : ℕ) (img : Fin Hh → Fin Ww → ColorV)
    (palLab : Fin 3 → ColorV) (r : Fin Hh) (c : Fin Ww) :
    (∀ j : Fin 3,
      Real.sqrt (distSq (img r c) (palLab (assignRaw Hh Ww img palLab r c)) : ℝ) ≤
        Real.sqrt (distSq (img r c) (palLab j) : ℝ)) ∧
    (∀ j : Fin 3, j < assignRaw Hh Ww img palLab r c →
      Real.sqrt (distSq (img r c) (palLab (assignRaw Hh Ww img palLab r c)) : ℝ) <
        Real.sqrt (distSq (img r c) (palLab j) : ℝ)) := by
  have hmono : ∀ x y : ℕ, x ≤ y → Real.sqrt (x : ℝ) ≤ Real.sqrt (y : ℝ) := fun x y h =>
    Real.sqrt_le_sqrt (by exact_mod_cast h)
  have hmono' : ∀ x y : ℕ, x < y → Real.sqrt (x : ℝ) < Real.sqrt (y : ℝ) := fun x y h =>
    Real.sqrt_lt_sqrt (by positivity) (by exact_mod_cast h)
  have hassign : assignRaw Hh Ww img palLab r c =
      argmin3 (distSq (img r c) (palLab 0)) (distSq (img r c) (palLab 1))
        (distSq (img r c) (palLab 2)) := rfl
  rcases argmin3_cases (distSq (img r c) (palLab 0)) (distSq (img r c) (palLab 1))
      (distSq (img r c) (palLab 2)) with ⟨heq, ha, hb⟩ | ⟨heq, ha, hb⟩ | ⟨heq, ha, hb⟩ <;>
    rw [hassign, heq]
  · refine ⟨fun j => ?_, fun j hj => ?_⟩
    · fin_cases j
      · exact le_refl _
      · exact hmono _ _ ha
      · exact hmono _ _ hb
    · exact absurd hj (Fin.not_lt_zero j)
  · refine ⟨fun j => ?_, fun j hj => ?_⟩
    · fin_cases j
      · exact hmono _ _ (le_of_lt ha)
      · exact le_refl _
      · exact hmono _ _ hb
    · fin_cases j
      · exact hmono' _ _ ha
      · exact absurd hj (by decide)
      · exact absurd hj (by decide)
  · refine ⟨fun j => ?_, fun j hj => ?_⟩
    · fin_cases j
      · exact hmono _ _ (le_of_lt ha)
      · exact hmono _ _ (le_of_lt hb)
      · exact le_refl _
    · fin_cases j
      · exact hmono' _ _ ha
      · exact hmono' _ _ hb
      · exact absurd hj (by decide)

/-- Witness for the amended C6 on the dark gray pixel instance. -/
theorem C6_assignment_stable_argmin_witness :
    (∀ j : Fin 3,
      Real.sqrt (distSq (imgGray10 0 0) (palC6 (assignRaw 1 1 imgGray10 palC6 0 0)) : ℝ) ≤
        Real.sqrt (distSq (imgGray10 0 0) (palC6 j) : ℝ)) ∧
    (∀ j : Fin 3, j < assignRaw 1 1 imgGray10 palC6 0 0 →
      Real.sqrt (distSq (imgGray10 0 0) (palC6 (assignRaw 1 1 imgGray10 palC6 0 0)) : ℝ) <
        Real.sqrt (distSq (imgGray10 0 0) (palC6 j) : ℝ)) :=
  C6_assignment_stable_argmin 1 1 imgGray10 palC6 0 0

/-- C8: every input path is processed; a path whose decode fails yields a
per-file skip record with its error message, and a path that decodes is
normalized and saved, independently of failures elsewhere in the batch. -/
theorem C8_batch_continues (decode : String → Option RawImage)
    (toLab rgbToLab : ColorV → ColorV) (colors : Fin 3 → ColorV) (paths : List String) :
    (mainBatch decode toLab rgbToLab colors paths).length = paths.length ∧
    ∀ k : ℕ, ∀ p : String, paths[k]? = some p →
      ((decode p = none →
        (mainBatch decode toLab rgbToLab colors paths)[k]? =
          some (ProcResult.skipped ("Error: Unable to load image " ++ p))) ∧
      (∀ im : RawImage, decode p = some im →
        (mainBatch decode toLab rgbToLab colors paths)[k]? =
          some (ProcResult.saved ⟨im.Hh, im.Ww,
            normalize_color_distribution im.Hh im.Ww (fun r c => toLab (im.pix r c))
              colors rgbToLab⟩))) := by
  refine ⟨by simp [mainBatch], ?_⟩
  intro k p hk
  have hmap : (mainBatch decode toLab rgbToLab colors paths)[k]? =
      some (process_image decode toLab rgbToLab colors p) := by
    rw [mainBatch, List.getElem?_map, hk]
    rfl
  constructor
  · intro hnone
    rw [hmap]
    unfold process_image
    rw [hnone]
  · intro im hsome
    rw [hmap]
    unfold process_image
    rw [hsome]

/-- Witness for C8: a two-file batch whose first file fails to decode. -/
theorem C8_batch_continues_witness :
    (mainBatch decodeW id id palBW ["a.png", "b.png"]).length = 2 ∧
    (mainBatch decodeW id id palBW ["a.png", "b.png"])[0]? =
      some (ProcResult.skipped ("Error: Unable to load image " ++ "a.png")) := by
  have h := C8_batch_continues decodeW id id palBW ["a.png", "b.png"]
  exact ⟨h.1, (h.2 0 "a.png" rfl).1 rfl⟩
